import Mathlib

/-!
# Verification of the CodeConnect graph-construction engine

Shallow embedding of `src/graph.js` (class `GraphBuilder`): the builder state
is passed explicitly, JS `Map` objects become association lists preserving
insertion order, JS exceptions become `Except Unit`, and JS number-to-string
interpolation becomes the decimal converter `natDec`.  The Node `path` module
(`dirname`, `basename`, `join`, `relative`) is not part of the repository; it
is modelled from Node's documented `path.posix` semantics.
-/

set_option maxHeartbeats 1000000

/-- Decimal digits of a natural number, fuel-driven so that it computes by
`rfl`/`decide`.  Models JS template interpolation of a non-negative integer. -/
def natDecFuel : Nat → Nat → List Char → List Char
  | 0, _, acc => acc
  | fuel + 1, n, acc =>
    if n < 10 then Nat.digitChar n :: acc
    else natDecFuel fuel (n / 10) (Nat.digitChar (n % 10) :: acc)

/-- Decimal string of a natural number (JS `${n}` for integer `n`). -/
def natDec (n : Nat) : String :=
  ⟨natDecFuel (n + 1) n []⟩

/-- Generated identifier `type-<counter>` (graph.js line 312). -/
def mkId (t : String) (k : Nat) : String :=
  t ++ "-" ++ natDec k

/-- Substring test on character lists: models JS `String.prototype.includes`. -/
def charsContains : List Char → List Char → Bool
  | hay, needle =>
    if needle.isPrefixOf hay then true
    else
      match hay with
      | [] => false
      | _ :: t => charsContains t needle

/-- JS `haystack.includes(needle)`. -/
def strIncludes (hay needle : String) : Bool :=
  charsContains hay.data needle.data

/-- JS `s.endsWith(suffix)`. -/
def strEndsWith (s suf : String) : Bool :=
  suf.data.reverse.isPrefixOf s.data.reverse

/-! ## Node `path.posix` model -/

/-- Node `path.posix.dirname`.  Scanning from the right, trailing separators
are skipped, then the final segment, and the string is cut at the separator
found there; special cases follow Node's implementation. -/
def dirname (s : String) : String :=
  match s.data with
  | [] => "."
  | c0 :: t =>
    let hasRoot := c0 = '/'
    let r2 := (t.reverse.dropWhile (· = '/')).dropWhile (· ≠ '/')
    if r2 = [] then (if hasRoot then "/" else ".")
    else if hasRoot ∧ r2.length = 1 then "//"
    else ⟨(c0 :: t).take r2.length⟩

/-- Node `path.posix.basename` (without the extension argument). -/
def basename (s : String) : String :=
  ⟨((s.data.reverse.dropWhile (· = '/')).takeWhile (· ≠ '/')).reverse⟩

/-- Split a character list on `/`, keeping empty segments. -/
def splitSlash : List Char → List (List Char)
  | [] => [[]]
  | c :: rest =>
    if c = '/' then [] :: splitSlash rest
    else
      match splitSlash rest with
      | s :: ss => (c :: s) :: ss
      | [] => [[c]]

/-- Segment machine of Node's `normalizeString`: drops empty and `.` segments
and resolves `..` (kept at the front only when `allowAbove` is true).  The
accumulator holds processed segments in reverse order. -/
def normSegs (allowAbove : Bool) : List (List Char) → List (List Char) → List (List Char)
  | [], acc => acc.reverse
  | s :: rest, acc =>
    if s = [] ∨ s = ['.'] then normSegs allowAbove rest acc
    else if s = ['.', '.'] then
      match acc with
      | a :: as =>
        if a = ['.', '.'] then
          (if allowAbove then normSegs allowAbove rest (s :: a :: as)
           else normSegs allowAbove rest (a :: as))
        else normSegs allowAbove rest as
      | [] =>
        if allowAbove then normSegs allowAbove rest [s]
        else normSegs allowAbove rest []
    else normSegs allowAbove rest (s :: acc)

/-- Join segments with `/`. -/
def joinSegs : List (List Char) → List Char
  | [] => []
  | [s] => s
  | s :: rest => s ++ '/' :: joinSegs rest

/-- Node `path.posix.normalize`. -/
def normalizeP (p : String) : String :=
  match p.data with
  | [] => "."
  | c0 :: _ =>
    let isAbs := c0 = '/'
    let trailingSep := p.data.getLast? = some '/'
    let body := joinSegs (normSegs (!isAbs) (splitSlash p.data) [])
    if body = [] then
      (if isAbs then "/" else if trailingSep then "./" else ".")
    else
      let body1 := if trailingSep then body ++ ['/'] else body
      if isAbs then ⟨'/' :: body1⟩ else ⟨body1⟩

/-- Node `path.posix.join` for two arguments. -/
def pathJoin (a b : String) : String :=
  if a = "" ∧ b = "" then "."
  else if a = "" then normalizeP b
  else if b = "" then normalizeP a
  else normalizeP (a ++ "/" ++ b)

/-- Node `path.posix.resolve` for a single argument, with the working
directory taken as `/` (the engine only ever resolves absolute workspace
paths, for which the working directory is irrelevant). -/
def resolveP (p : String) : String :=
  let base := if p.data.head? = some '/' then p.data else '/' :: p.data
  let segs := normSegs false (splitSlash base) []
  match segs with
  | [] => "/"
  | _ => ⟨'/' :: joinSegs segs⟩

/-- Segments of a resolved absolute path (no empty segments remain). -/
def absSegs (p : String) : List (List Char) :=
  (splitSlash p.data).filter (· ≠ [])

/-- Drop the longest common prefix of two segment lists. -/
def dropCommon : List (List Char) → List (List Char) → List (List Char) × List (List Char)
  | x :: xs, y :: ys =>
    if x = y then dropCommon xs ys else (x :: xs, y :: ys)
  | xs, ys => (xs, ys)

/-- Node `path.posix.relative` (segment-level formulation over resolved
absolute paths). -/
def pathRel (from_ to_ : String) : String :=
  if from_ = to_ then ""
  else
    let f := resolveP from_
    let t := resolveP to_
    if f = t then ""
    else
      let (fr, tr) := dropCommon (absSegs f) (absSegs t)
      ⟨joinSegs (fr.map (fun _ => ['.', '.']) ++ tr)⟩

/-! ## Data model (File Record, §3 of the spec; fields that JS callers may
omit are `Option`s, since accessing a missing array field throws in JS). -/

structure FuncRec where
  name : String
  type : String
  line : Nat
  endLine : Nat
  params : Option (List String)
deriving Repr, DecidableEq

structure ImportRec where
  source : String
  imported : String
deriving Repr, DecidableEq

structure CallRec where
  name : String
  line : Nat
deriving Repr, DecidableEq

structure FileRec where
  path : String
  language : String
  functions : Option (List FuncRec)
  imports : Option (List ImportRec)
  exports : Option (List String)
  calls : Option (List CallRec)
deriving Repr, DecidableEq

/-- Node payload (`node.data` in graph.js).  Fields that only some node kinds
carry are `Option`s, mirroring the dynamic JS object. -/
structure NodeData where
  id : String
  label : String
  type : String
  path : String
  relativePath : Option String := none
  language : Option String := none
  functionCount : Option Nat := none
  importCount : Option Nat := none
  exportCount : Option Nat := none
  line : Option Nat := none
  endLine : Option Nat := none
  functionType : Option String := none
  params : Option (List String) := none
deriving Repr, DecidableEq

structure Node where
  data : NodeData
deriving Repr, DecidableEq

structure EdgeData where
  id : String
  source : String
  target : String
  type : String
  label : String
deriving Repr, DecidableEq

structure Edge where
  data : EdgeData
deriving Repr, DecidableEq

/-! ## JS `Map` model: association list in insertion order. -/

def mapGet (m : List (String × String)) (k : String) : Option String :=
  match m with
  | [] => none
  | (k', v) :: rest => if k' = k then some v else mapGet rest k

def mapHas (m : List (String × String)) (k : String) : Bool :=
  (mapGet m k).isSome

def mapSet (m : List (String × String)) (k v : String) : List (String × String) :=
  match m with
  | [] => [(k, v)]
  | (k', v') :: rest => if k' = k then (k', v) :: rest else (k', v') :: mapSet rest k v

/-! ## GraphBuilder state and operations (graph.js lines 13-19, 244-314). -/

structure Builder where
  nodes : List Node
  edges : List Edge
  nodeIdCounter : Nat
  nodeMap : List (String × String)
deriving Repr, DecidableEq

def Builder.init : Builder :=
  { nodes := [], edges := [], nodeIdCounter := 0, nodeMap := [] }

/-- graph.js 379-384: `reset()` clears nodes, edges, counter and map. -/
def resetB (_ : Builder) : Builder :=
  Builder.init

/-- graph.js 305-314: `getNodeId(type, identifier)` returns the mapped id for
`type:identifier` if present, otherwise generates `type-<counter>` and bumps
the counter (without recording the key). -/
def getNodeId (b : Builder) (t identifier : String) : String × Builder :=
  let key := t ++ ":" ++ identifier
  match mapGet b.nodeMap key with
  | some v => (v, b)
  | none =>
    (mkId t b.nodeIdCounter, { b with nodeIdCounter := b.nodeIdCounter + 1 })

/-- Key used by `addNode` (graph.js 251): `type:` followed by `path` when
truthy (non-empty), else the node's `id`. -/
def nodeKey (nd : NodeData) : String :=
  nd.type ++ ":" ++ (if nd.path ≠ "" then nd.path else nd.id)

/-- graph.js 250-268: `addNode` is an idempotent insert keyed by `nodeKey`;
a truthy existing id is returned as-is, otherwise the node is appended and
the key recorded. -/
def addNode (b : Builder) (nd : NodeData) : String × Builder :=
  let key := nodeKey nd
  let existing := (mapGet b.nodeMap key).getD ""
  if existing ≠ "" then (existing, b)
  else
    (nd.id,
     { b with
        nodes := b.nodes ++ [{ data := nd }]
        nodeMap := mapSet b.nodeMap key nd.id })

/-- Flattened duplicate-detection key of graph.js 277-281. -/
def edgeFlat (s t ty : String) : String :=
  s ++ "-" ++ t ++ "-" ++ ty

/-- graph.js 275-296: `addEdge` drops the edge when the flattened
`source-target-type` key is already present, otherwise appends it with the
generated id `edge-<edges.length>` and label defaulted to `""`. -/
def addEdge (b : Builder) (source target type_ label : String) : Builder :=
  let key := edgeFlat source target type_
  if b.edges.any (fun e => edgeFlat e.data.source e.data.target e.data.type == key) then b
  else
    { b with
        edges := b.edges ++
          [{ data := { id := "edge-" ++ natDec b.edges.length,
                       source := source, target := target,
                       type := type_, label := label } }] }

/-! ## Folder pass (graph.js 55-85).  The JS `while` loop over
`path.dirname` is modelled with explicit fuel; `folderWalk_total` (claim C9)
proves the fuel is always sufficient. -/

def folderWalkFuel (ws : String) : Nat → String → Option (List String)
  | 0, _ => none
  | fuel + 1, p =>
    if p = ws ∨ dirname p = p then some []
    else (folderWalkFuel ws fuel (dirname p)).map (p :: ·)

/-- Directory-ancestry walk of graph.js 63-69, starting at `p` (the caller
passes `dirname file.path`). -/
def folderWalk (ws p : String) : List String :=
  (folderWalkFuel ws (p.length + 2) p).getD []

/-- JS `Set` insertion-order deduplication. -/
def dedupFirstAux : List String → List String → List String
  | _, [] => []
  | seen, x :: rest =>
    if x ∈ seen then dedupFirstAux seen rest
    else x :: dedupFirstAux (x :: seen) rest

def dedupFirst (l : List String) : List String :=
  dedupFirstAux [] l

/-- All folder paths collected by graph.js 59-70 (a `Set`, insertion order). -/
def folderList (ws : String) (files : List FileRec) : List String :=
  dedupFirst (files.foldr (fun f acc => folderWalk ws (dirname f.path) ++ acc) [])

/-- Folder node payload built at graph.js 73-84. -/
def folderNodeData (ws folderPath id : String) : NodeData :=
  let relativePath := pathRel ws folderPath
  { id := id
    label := basename folderPath
    type := "folder"
    path := folderPath
    relativePath := some (if relativePath ≠ "" then relativePath else ".") }

def addFolder (ws : String) (b : Builder) (folderPath : String) : Builder :=
  let (id, b) := getNodeId b "folder" folderPath
  (addNode b (folderNodeData ws folderPath id)).2

/-- graph.js 55-85 (`buildFolderNodes`); `ws = none` models an absent
workspace folder (early return). -/
def buildFolderNodes (ws : Option String) (b : Builder) (files : List FileRec) : Builder :=
  match ws with
  | none => b
  | some w => (folderList w files).foldl (addFolder w) b

/-! ## File/function pass (graph.js 92-149). -/

def fieldOf {α : Type} : Option α → Except Unit α
  | some x => .ok x
  | none => .error ()

/-- One iteration of the function loop of graph.js 128-147: generate the
function node id, insert (or dedupe) the function node, then link file →
function with a `contains` edge. -/
def funcNodeStep (fpath fileNodeId : String) (b : Builder) (func : FuncRec) : Builder :=
  let (fnGen, b) := getNodeId b "function"
    (fpath ++ ":" ++ func.name ++ ":" ++ natDec func.line)
  let (funcNodeId, b) := addNode b
    { id := fnGen
      label := func.name
      type := "function"
      path := fpath
      line := some func.line
      endLine := some func.endLine
      functionType := some func.type
      params := some (func.params.getD []) }
  addEdge b fileNodeId funcNodeId "contains" ""

/-- Successful processing of one file by graph.js 95-148: file node, optional
contains edge from the parent folder, then the function loop. -/
def fileNodeBody (ws : Option String) (b : Builder) (f : FileRec)
    (functions : List FuncRec) (imports : List ImportRec) (exports : List String) : Builder :=
  let fileName := basename f.path
  let relativePath :=
    match ws with
    | some w => pathRel w f.path
    | none => f.path
  let (fid, b) := getNodeId b "file" f.path
  let (fileNodeId, b) := addNode b
    { id := fid
      label := fileName
      type := "file"
      path := f.path
      relativePath := some relativePath
      language := some f.language
      functionCount := some functions.length
      importCount := some imports.length
      exportCount := some exports.length }
  let parentFolder := dirname f.path
  let (parentNodeId, b) := getNodeId b "folder" parentFolder
  let b :=
    if mapHas b.nodeMap ("folder" ++ ":" ++ parentFolder) then
      addEdge b parentNodeId fileNodeId "contains" ""
    else b
  functions.foldl (funcNodeStep f.path fileNodeId) b

/-- Processing of one file by graph.js 95-148.  In the JS code the missing
array fields throw mid-way through the node construction; since a thrown
build discards the builder entirely, the embedding checks the fields first
and runs the successful path `fileNodeBody`. -/
def buildFileNode1 (ws : Option String) (b : Builder) (f : FileRec) : Except Unit Builder := do
  let functions ← fieldOf f.functions
  let imports ← fieldOf f.imports
  let exports ← fieldOf f.exports
  .ok (fileNodeBody ws b f functions imports exports)

def buildFileNodesGo (ws : Option String) (b : Builder) : List FileRec → Except Unit Builder
  | [] => .ok b
  | f :: rest => do
    let b ← buildFileNode1 ws b f
    buildFileNodesGo ws b rest

/-- graph.js 92-149 (`buildFileNodes`). -/
def buildFileNodes (ws : Option String) (b : Builder) (files : List FileRec) : Except Unit Builder :=
  buildFileNodesGo ws b files

/-! ## Edge pass (graph.js 156-242). -/

/-- Supported extensions (graph.js 220). -/
def extList : List String := [".js", ".jsx", ".ts", ".tsx", ".py"]

/-- Extension loop of graph.js 221-232: for each extension, first
`source + ext`, then `source/index<ext>`. -/
def extLoop (b : Builder) (src : String) (filePaths : List String) :
    List String → Option String × Builder
  | [] => (none, b)
  | ext :: rest =>
    if filePaths.contains (src ++ ext) then
      let (id, b) := getNodeId b "file" (src ++ ext)
      (some id, b)
    else
      let indexPath := pathJoin src ("index" ++ ext)
      if filePaths.contains indexPath then
        let (id, b) := getNodeId b "file" indexPath
        (some id, b)
      else extLoop b src filePaths rest

/-- graph.js 213-242 (`resolveImportTarget`); `filePaths` is the key list of
`filePathMap` in insertion order (only `.has` and key iteration are used). -/
def resolveImportTarget (b : Builder) (importSource : String) (filePaths : List String) :
    Option String × Builder :=
  if filePaths.contains importSource then
    let (id, b) := getNodeId b "file" importSource
    (some id, b)
  else
    match extLoop b importSource filePaths extList with
    | (some id, b) => (some id, b)
    | (none, b) =>
      match filePaths.find? (fun fp => strEndsWith fp importSource || strIncludes fp importSource) with
      | some fp =>
        let (id, b) := getNodeId b "file" fp
        (some id, b)
      | none => (none, b)

/-- Import edges of one file (graph.js 163-174). -/
def importEdges (b : Builder) (fileNodeId : String) (filePaths : List String)
    (imports : List ImportRec) : Builder :=
  imports.foldl
    (fun b imp =>
      match resolveImportTarget b imp.source filePaths with
      | (some targetFileNodeId, b) =>
        addEdge b fileNodeId targetFileNodeId "imports"
          (if imp.imported ≠ "*" then imp.imported else "")
      | (none, b) => b) b

/-- Call edges of one function (graph.js 181-201). -/
def callEdgesOfFunc (b : Builder) (fpath : String) (functions : List FuncRec)
    (funcNodeId : String) (func : FuncRec) (calls : List CallRec) : Builder :=
  calls.foldl
    (fun b call =>
      if func.line ≤ call.line ∧ call.line ≤ func.endLine then
        match functions.find? (fun f => f.name = call.name) with
        | some targetFunc =>
          let (targetFuncNodeId, b) := getNodeId b "function"
            (fpath ++ ":" ++ targetFunc.name ++ ":" ++ natDec targetFunc.line)
          addEdge b funcNodeId targetFuncNodeId "calls" ""
        | none => b
      else b) b

/-- One iteration of the function loop of graph.js 177-202. -/
def edgeFuncStep (fpath : String) (functions : List FuncRec) (calls : List CallRec)
    (b : Builder) (func : FuncRec) : Builder :=
  let (funcNodeId, b) := getNodeId b "function"
    (fpath ++ ":" ++ func.name ++ ":" ++ natDec func.line)
  callEdgesOfFunc b fpath functions funcNodeId func calls

/-- Edge construction for one file (graph.js 159-203): import edges, then for
each function the calls lying inside its line range.  `file.calls` is only
dereferenced inside the function loop, so a missing `calls` field throws
exactly when the file has at least one function; as in `buildFileNode1`, the
field check is hoisted because a thrown build discards the builder. -/
def buildEdges1 (b : Builder) (filePaths : List String) (f : FileRec) : Except Unit Builder := do
  let (fileNodeId, b) := getNodeId b "file" f.path
  let imports ← fieldOf f.imports
  let b := importEdges b fileNodeId filePaths imports
  let functions ← fieldOf f.functions
  match functions with
  | [] => .ok b
  | fn :: fl => do
    let calls ← fieldOf f.calls
    .ok ((fn :: fl).foldl (edgeFuncStep f.path (fn :: fl) calls) b)

def buildEdgesGo (b : Builder) (filePaths : List String) : List FileRec → Except Unit Builder
  | [] => .ok b
  | f :: rest => do
    let b ← buildEdges1 b filePaths f
    buildEdgesGo b filePaths rest

/-- graph.js 156-204 (`buildEdges`); `filePathMap` keys are the file paths in
first-insertion order. -/
def buildEdges (b : Builder) (files : List FileRec) : Except Unit Builder :=
  buildEdgesGo b (dedupFirst (files.map (·.path))) files

/-! ## Stats and payload (graph.js 321-374). -/

structure NodeCounts where
  folder : Nat
  file : Nat
  function : Nat
deriving Repr, DecidableEq

structure EdgeCounts where
  contains : Nat
  imports : Nat
  calls : Nat
deriving Repr, DecidableEq

/-- graph.js 339-353. -/
def getNodeCountsByType (nodes : List Node) : NodeCounts :=
  nodes.foldl
    (fun c n =>
      if n.data.type = "folder" then { c with folder := c.folder + 1 }
      else if n.data.type = "file" then { c with file := c.file + 1 }
      else if n.data.type = "function" then { c with function := c.function + 1 }
      else c)
    { folder := 0, file := 0, function := 0 }

/-- graph.js 360-374. -/
def getEdgeCountsByType (edges : List Edge) : EdgeCounts :=
  edges.foldl
    (fun c e =>
      if e.data.type = "contains" then { c with contains := c.contains + 1 }
      else if e.data.type = "imports" then { c with imports := c.imports + 1 }
      else if e.data.type = "calls" then { c with calls := c.calls + 1 }
      else c)
    { contains := 0, imports := 0, calls := 0 }

/-- Stats object; `filterByNodeType` (graph.js 403-410) omits the per-type
breakdowns, so those fields are `Option`s (a missing JS field is `none`). -/
structure Stats where
  totalNodes : Nat
  totalEdges : Nat
  nodesByType : Option NodeCounts := none
  edgesByType : Option EdgeCounts := none
deriving Repr, DecidableEq

structure GraphData where
  nodes : List Node
  edges : List Edge
  stats : Stats
deriving Repr, DecidableEq

/-- graph.js 321-332 (`getGraphData`). -/
def getGraphData (b : Builder) : GraphData :=
  { nodes := b.nodes
    edges := b.edges
    stats :=
      { totalNodes := b.nodes.length
        totalEdges := b.edges.length
        nodesByType := some (getNodeCountsByType b.nodes)
        edgesByType := some (getEdgeCountsByType b.edges) } }

/-- graph.js 27-47 (`buildGraph`): reset, early return on empty input, then
the three passes.  `ws` is the first workspace folder (or `none`). -/
def buildGraph (ws : Option String) (b : Builder) (files : List FileRec) :
    Except Unit (GraphData × Builder) := do
  let b := resetB b
  if files.isEmpty then
    .ok (getGraphData b, b)
  else
    let b := buildFolderNodes ws b files
    let b ← buildFileNodes ws b files
    let b ← buildEdges b files
    .ok (getGraphData b, b)

/-- graph.js 392-411 (`filterByNodeType`): the method reads the store without
assigning to it, so its state-passing translation returns the receiver
unchanged alongside the filtered payload. -/
def filterByNodeType (b : Builder) (types : List String) : GraphData × Builder :=
  let filteredNodes := b.nodes.filter (fun n => types.contains n.data.type)
  let nodeIds := filteredNodes.map (fun n => n.data.id)
  let filteredEdges := b.edges.filter
    (fun e => nodeIds.contains e.data.source ∧ nodeIds.contains e.data.target)
  ({ nodes := filteredNodes
     edges := filteredEdges
     stats :=
       { totalNodes := filteredNodes.length
         totalEdges := filteredEdges.length } }, b)

/-! ## String infrastructure lemmas -/

theorem sdata_app (x y : String) : (x ++ y).data = x.data ++ y.data := rfl

theorem sext {x y : String} (h : x.data = y.data) : x = y :=
  congrArg String.mk h

theorem app_left_cancel {l a b : List Char} (h : l ++ a = l ++ b) : a = b :=
  List.append_cancel_left h

theorem strApp_left_cancel {p a b : String} (h : p ++ a = p ++ b) : a = b := by
  apply sext
  have h2 : p.data ++ a.data = p.data ++ b.data := by
    have := congrArg String.data h
    simpa [sdata_app] using this
  exact app_left_cancel h2

/-- The three node-type key spaces never collide (keys are `type ++ ":" ++ x`). -/
theorem key_ne_folder_file (a b : String) : "folder" ++ ":" ++ a ≠ "file" ++ ":" ++ b := by
  intro h
  have h1 : (("folder" ++ ":" ++ a).data.get? 1) = (("file" ++ ":" ++ b).data.get? 1) :=
    congrArg (fun s => s.data.get? 1) h
  have h2 : (("folder" ++ ":" ++ a).data.get? 1) = some 'o' := rfl
  have h3 : (("file" ++ ":" ++ b).data.get? 1) = some 'i' := rfl
  rw [h2, h3] at h1
  exact absurd h1 (by decide)

theorem key_ne_folder_function (a b : String) : "folder" ++ ":" ++ a ≠ "function" ++ ":" ++ b := by
  intro h
  have h1 : (("folder" ++ ":" ++ a).data.get? 1) = (("function" ++ ":" ++ b).data.get? 1) :=
    congrArg (fun s => s.data.get? 1) h
  have h2 : (("folder" ++ ":" ++ a).data.get? 1) = some 'o' := rfl
  have h3 : (("function" ++ ":" ++ b).data.get? 1) = some 'u' := rfl
  rw [h2, h3] at h1
  exact absurd h1 (by decide)

theorem key_ne_file_function (a b : String) : "file" ++ ":" ++ a ≠ "function" ++ ":" ++ b := by
  intro h
  have h1 : (("file" ++ ":" ++ a).data.get? 1) = (("function" ++ ":" ++ b).data.get? 1) :=
    congrArg (fun s => s.data.get? 1) h
  have h2 : (("file" ++ ":" ++ a).data.get? 1) = some 'i' := rfl
  have h3 : (("function" ++ ":" ++ b).data.get? 1) = some 'u' := rfl
  rw [h2, h3] at h1
  exact absurd h1 (by decide)

theorem key_inj {t a b : String} (h : t ++ ":" ++ a = t ++ ":" ++ b) : a = b :=
  strApp_left_cancel h

/-! ## Decimal conversion: canonical form and injectivity -/

/-- Canonical digit list of `n`. -/
def dig (n : Nat) : List Char :=
  natDecFuel (n + 1) n []

theorem natDecFuel_eq_dig : ∀ (n fuel : Nat) (acc : List Char), n < fuel →
    natDecFuel fuel n acc = dig n ++ acc := by
  intro n
  induction n using Nat.strong_induction_on with
  | _ n ih =>
    intro fuel acc hf
    match fuel, hf with
    | fuel + 1, hf =>
      by_cases h10 : n < 10
      · simp [natDecFuel, h10, dig]
      · have hdiv : n / 10 < n := Nat.div_lt_self (by omega) (by omega)
        have h1 : natDecFuel (fuel + 1) n acc
            = natDecFuel fuel (n / 10) (Nat.digitChar (n % 10) :: acc) := by
          simp [natDecFuel, h10]
        have h2 : dig n = dig (n / 10) ++ [Nat.digitChar (n % 10)] := by
          have : dig n = natDecFuel n (n / 10) [Nat.digitChar (n % 10)] := by
            simp [dig, natDecFuel, h10]
          rw [this, ih (n / 10) hdiv n [Nat.digitChar (n % 10)] (by omega)]
        rw [h1, ih (n / 10) hdiv fuel (Nat.digitChar (n % 10) :: acc) (by omega), h2]
        simp

theorem dig_lt10 {n : Nat} (h : n < 10) : dig n = [Nat.digitChar n] := by
  simp [dig, natDecFuel, h]

theorem dig_ge10 {n : Nat} (h : ¬ n < 10) : dig n = dig (n / 10) ++ [Nat.digitChar (n % 10)] := by
  have h1 : dig n = natDecFuel n (n / 10) [Nat.digitChar (n % 10)] := by
    simp [dig, natDecFuel, h]
  rw [h1, natDecFuel_eq_dig (n / 10) n [Nat.digitChar (n % 10)]
    (Nat.lt_of_lt_of_le (Nat.div_lt_self (by omega) (by omega)) (Nat.le_refl n))]

theorem dig_ne_nil (n : Nat) : dig n ≠ [] := by
  by_cases h : n < 10
  · simp [dig_lt10 h]
  · simp [dig_ge10 h]

theorem digitChar_inj {a b : Nat} (ha : a < 10) (hb : b < 10)
    (h : Nat.digitChar a = Nat.digitChar b) : a = b := by
  have key : ∀ x y : Fin 10, Nat.digitChar x.val = Nat.digitChar y.val → x = y := by decide
  have := key ⟨a, ha⟩ ⟨b, hb⟩ h
  exact congrArg Fin.val this

theorem dig_inj : ∀ m n : Nat, dig m = dig n → m = n := by
  intro m
  induction m using Nat.strong_induction_on with
  | _ m ih =>
    intro n h
    by_cases hm : m < 10 <;> by_cases hn : n < 10
    · rw [dig_lt10 hm, dig_lt10 hn] at h
      exact digitChar_inj hm hn (by simpa using h)
    · rw [dig_lt10 hm, dig_ge10 hn] at h
      have := congrArg List.length h
      simp at this
      exact absurd this (dig_ne_nil (n / 10))
    · rw [dig_ge10 hm, dig_lt10 hn] at h
      have := congrArg List.length h
      simp at this
      exact absurd this (dig_ne_nil (m / 10))
    · rw [dig_ge10 hm, dig_ge10 hn] at h
      have h2 := List.append_inj' h rfl
      have hdig : dig (m / 10) = dig (n / 10) := h2.1
      have hchar : Nat.digitChar (m % 10) = Nat.digitChar (n % 10) := by
        simpa using h2.2
      have hdivlt : m / 10 < m := Nat.div_lt_self (by omega) (by omega)
      have hdiv := ih (m / 10) hdivlt (n / 10) hdig
      have hmod := digitChar_inj (Nat.mod_lt _ (by omega)) (Nat.mod_lt _ (by omega)) hchar
      omega

theorem natDec_data (n : Nat) : (natDec n).data = dig n := rfl

theorem natDec_inj {m n : Nat} (h : natDec m = natDec n) : m = n :=
  dig_inj m n (congrArg String.data h)

/-- Digits contain no dash. -/
theorem dig_no_dash (n : Nat) : ∀ c ∈ dig n, c ≠ '-' := by
  induction n using Nat.strong_induction_on with
  | _ n ih =>
    by_cases h : n < 10
    · rw [dig_lt10 h]
      intro c hc
      simp at hc
      subst hc
      have key : ∀ x : Fin 10, Nat.digitChar x.val ≠ '-' := by decide
      exact key ⟨n, h⟩
    · rw [dig_ge10 h]
      intro c hc
      simp at hc
      rcases hc with hc | hc
      · exact ih (n / 10) (Nat.div_lt_self (by omega) (by omega)) c hc
      · subst hc
        have key : ∀ x : Fin 10, Nat.digitChar x.val ≠ '-' := by decide
        exact key ⟨n % 10, Nat.mod_lt _ (by omega)⟩

theorem natDec_dash_count (n : Nat) : (natDec n).data.count '-' = 0 := by
  rw [natDec_data]
  exact List.count_eq_zero.mpr (fun h => dig_no_dash n '-' h rfl)

/-! ## `mkId` facts -/

theorem mkId_data (t : String) (k : Nat) :
    (mkId t k).data = t.data ++ '-' :: (natDec k).data := by
  show (t ++ "-" ++ natDec k).data = _
  simp [sdata_app]

theorem mkId_inj_same {t : String} {k k' : Nat} (h : mkId t k = mkId t k') : k = k' :=
  natDec_inj (strApp_left_cancel
    (show (t ++ "-") ++ natDec k = (t ++ "-") ++ natDec k' from h))

theorem mkId_ne_folder_file (a b : Nat) : mkId "folder" a ≠ mkId "file" b := by
  intro h
  have h1 := congrArg (fun s => s.data.get? 1) h
  have h2 : ((mkId "folder" a).data.get? 1) = some 'o' := rfl
  have h3 : ((mkId "file" b).data.get? 1) = some 'i' := rfl
  simp only at h1
  rw [h2, h3] at h1
  exact absurd h1 (by decide)

theorem mkId_ne_folder_function (a b : Nat) : mkId "folder" a ≠ mkId "function" b := by
  intro h
  have h1 := congrArg (fun s => s.data.get? 1) h
  have h2 : ((mkId "folder" a).data.get? 1) = some 'o' := rfl
  have h3 : ((mkId "function" b).data.get? 1) = some 'u' := rfl
  simp only at h1
  rw [h2, h3] at h1
  exact absurd h1 (by decide)

theorem mkId_ne_file_function (a b : Nat) : mkId "file" a ≠ mkId "function" b := by
  intro h
  have h1 := congrArg (fun s => s.data.get? 1) h
  have h2 : ((mkId "file" a).data.get? 1) = some 'i' := rfl
  have h3 : ((mkId "function" b).data.get? 1) = some 'u' := rfl
  simp only at h1
  rw [h2, h3] at h1
  exact absurd h1 (by decide)

theorem mkId_ne_empty (t : String) (k : Nat) : mkId t k ≠ "" := by
  intro h
  have h1 : (mkId t k).data = ("" : String).data := congrArg String.data h
  rw [mkId_data] at h1
  have h2 : ("" : String).data = [] := rfl
  rw [h2] at h1
  exact absurd h1 (by simp)

/-! ## Association-list (JS `Map`) lemmas -/

theorem mapGet_append (m1 m2 : List (String × String)) (k : String) :
    mapGet (m1 ++ m2) k =
      match mapGet m1 k with
      | some v => some v
      | none => mapGet m2 k := by
  induction m1 with
  | nil => simp [mapGet]
  | cons p rest ih =>
    by_cases h : p.1 = k
    · simp [mapGet, h]
    · simp [mapGet, h, ih]

theorem mapGet_eq_none_iff (m : List (String × String)) (k : String) :
    mapGet m k = none ↔ ∀ p ∈ m, p.1 ≠ k := by
  induction m with
  | nil => simp [mapGet]
  | cons p rest ih =>
    by_cases h : p.1 = k
    · simp [mapGet, h]
    · simp [mapGet, h, ih]

theorem mapGet_mem {m : List (String × String)} {k v : String} (h : mapGet m k = some v) :
    (k, v) ∈ m := by
  induction m with
  | nil => simp [mapGet] at h
  | cons p rest ih =>
    obtain ⟨k', v'⟩ := p
    by_cases hk : k' = k
    · subst hk
      simp [mapGet] at h
      subst h
      exact List.mem_cons_self _ _
    · simp [mapGet, hk] at h
      exact List.mem_cons_of_mem _ (ih h)

theorem mapSet_of_none {m : List (String × String)} {k : String} (h : mapGet m k = none)
    (v : String) : mapSet m k v = m ++ [(k, v)] := by
  induction m with
  | nil => simp [mapSet]
  | cons p rest ih =>
    by_cases hk : p.1 = k
    · simp [mapGet, hk] at h
    · simp [mapGet, hk] at h
      cases p
      simp only [mapSet]
      simp at hk
      simp [hk, ih h]

theorem mapGet_snoc_self {m : List (String × String)} {k : String} (h : mapGet m k = none)
    (v : String) : mapGet (m ++ [(k, v)]) k = some v := by
  rw [mapGet_append, h]
  simp [mapGet]

theorem mapGet_snoc_other {m : List (String × String)} {k k' : String} (h : k' ≠ k)
    (v : String) : mapGet (m ++ [(k', v)]) k = mapGet m k := by
  rw [mapGet_append]
  cases hm : mapGet m k
  · simp [mapGet, h]
  · rfl

/-! ## Dash-separated key splitting.  All generated identifiers contain
exactly one dash (`type-digits`), so the flattened `source-target-type`
duplicate key of `addEdge` determines its three components. -/

theorem dashSplit : ∀ (as as' bs bs' : List Char),
    as ++ '-' :: bs = as' ++ '-' :: bs' →
    as.count '-' = as'.count '-' →
    as = as' ∧ bs = bs' := by
  intro as
  induction as with
  | nil =>
    intro as' bs bs' h hc
    cases as' with
    | nil => simpa using h
    | cons x xs =>
      simp at h
      obtain ⟨hx, _⟩ := h
      rw [List.count_nil] at hc
      rw [← hx] at hc
      simp [List.count_cons] at hc
  | cons x xs ih =>
    intro as' bs bs' h hc
    cases as' with
    | nil =>
      simp at h
      obtain ⟨hx, _⟩ := h
      rw [List.count_nil] at hc
      rw [hx] at hc
      simp [List.count_cons] at hc
    | cons y ys =>
      simp at h
      obtain ⟨hxy, hrest⟩ := h
      subst hxy
      have hc2 : xs.count '-' = ys.count '-' := by
        simpa [List.count_cons] using hc
      obtain ⟨h1, h2⟩ := ih ys bs bs' hrest hc2
      exact ⟨by rw [h1], h2⟩

theorem edgeFlat_data (s t ty : String) :
    (edgeFlat s t ty).data = s.data ++ '-' :: (t.data ++ '-' :: ty.data) := by
  show (s ++ "-" ++ t ++ "-" ++ ty).data = _
  simp [sdata_app]

theorem edgeFlat_inj {s t ty s' t' ty' : String}
    (hs : s.data.count '-' = s'.data.count '-')
    (ht : t.data.count '-' = t'.data.count '-')
    (h : edgeFlat s t ty = edgeFlat s' t' ty') :
    s = s' ∧ t = t' ∧ ty = ty' := by
  have hd : s.data ++ '-' :: (t.data ++ '-' :: ty.data)
      = s'.data ++ '-' :: (t'.data ++ '-' :: ty'.data) := by
    have := congrArg String.data h
    rwa [edgeFlat_data, edgeFlat_data] at this
  obtain ⟨h1, h2⟩ := dashSplit _ _ _ _ hd hs
  obtain ⟨h3, h4⟩ := dashSplit _ _ _ _ h2 ht
  exact ⟨sext h1, sext h3, sext h4⟩

theorem mkId_dash_count (t : String) (k : Nat) (htd : t.data.count '-' = 0) :
    (mkId t k).data.count '-' = 1 := by
  rw [mkId_data]
  have := natDec_dash_count k
  simp [List.count_append, List.count_cons, htd, this]

/-! ## Generic fold preservation -/

theorem foldl_preserve {α β : Type} {P : α → Prop} {f : α → β → α}
    (hf : ∀ a b, P a → P (f a b)) :
    ∀ (l : List β) (a : α), P a → P (l.foldl f a) := by
  intro l
  induction l with
  | nil => intro a ha; simpa using ha
  | cons x xs ih =>
    intro a ha
    simp only [List.foldl_cons]
    exact ih _ (hf a x ha)

/-! ## Framing lemmas for the builder operations -/

theorem getNodeId_nodes (b : Builder) (t i : String) : (getNodeId b t i).2.nodes = b.nodes := by
  simp only [getNodeId]
  cases hm : mapGet b.nodeMap (t ++ ":" ++ i) <;> simp [hm]

theorem getNodeId_edges (b : Builder) (t i : String) : (getNodeId b t i).2.edges = b.edges := by
  simp only [getNodeId]
  cases hm : mapGet b.nodeMap (t ++ ":" ++ i) <;> simp [hm]

theorem getNodeId_nodeMap (b : Builder) (t i : String) :
    (getNodeId b t i).2.nodeMap = b.nodeMap := by
  simp only [getNodeId]
  cases hm : mapGet b.nodeMap (t ++ ":" ++ i) <;> simp [hm]

theorem addNode_edges (b : Builder) (nd : NodeData) : (addNode b nd).2.edges = b.edges := by
  simp only [addNode]
  split <;> rfl

theorem addNode_counter (b : Builder) (nd : NodeData) :
    (addNode b nd).2.nodeIdCounter = b.nodeIdCounter := by
  simp only [addNode]
  split <;> rfl

theorem addEdge_nodes (b : Builder) (s t ty l : String) :
    (addEdge b s t ty l).nodes = b.nodes := by
  simp only [addEdge]
  split <;> rfl

theorem addEdge_nodeMap (b : Builder) (s t ty l : String) :
    (addEdge b s t ty l).nodeMap = b.nodeMap := by
  simp only [addEdge]
  split <;> rfl

theorem addEdge_counter (b : Builder) (s t ty l : String) :
    (addEdge b s t ty l).nodeIdCounter = b.nodeIdCounter := by
  simp only [addEdge]
  split <;> rfl

/-- `addEdge` either drops the edge or appends exactly one edge carrying the
given endpoints, type and label. -/
theorem addEdge_edges (b : Builder) (s t ty l : String) :
    (addEdge b s t ty l).edges = b.edges ∨
    (addEdge b s t ty l).edges = b.edges ++
      [{ data := { id := "edge-" ++ natDec b.edges.length,
                   source := s, target := t, type := ty, label := l } }] := by
  simp only [addEdge]
  split
  · exact Or.inl rfl
  · exact Or.inr rfl

/-- When an edge with the same flattened key is present, `addEdge` is a
no-op (first-writer-wins). -/
theorem addEdge_dup {b : Builder} {s t ty : String}
    (h : ∃ e ∈ b.edges, edgeFlat e.data.source e.data.target e.data.type = edgeFlat s t ty)
    (l : String) : addEdge b s t ty l = b := by
  simp only [addEdge]
  have : b.edges.any
      (fun e => edgeFlat e.data.source e.data.target e.data.type == edgeFlat s t ty) = true := by
    rw [List.any_eq_true]
    obtain ⟨e, he, hk⟩ := h
    exact ⟨e, he, by simp [hk]⟩
  simp [this]

/-- When no edge with the same flattened key is present, `addEdge` appends. -/
theorem addEdge_new {b : Builder} {s t ty : String}
    (h : ∀ e ∈ b.edges, edgeFlat e.data.source e.data.target e.data.type ≠ edgeFlat s t ty)
    (l : String) :
    (addEdge b s t ty l).edges = b.edges ++
      [{ data := { id := "edge-" ++ natDec b.edges.length,
                   source := s, target := t, type := ty, label := l } }] := by
  simp only [addEdge]
  have : b.edges.any
      (fun e => edgeFlat e.data.source e.data.target e.data.type == edgeFlat s t ty) = false := by
    rw [List.any_eq_false]
    intro e he
    simp [h e he]
  simp [this]

/-! ## The duplicate-edge invariant (claim C5 machinery) -/

def FlatDistinct (es : List Edge) : Prop :=
  es.Pairwise (fun e1 e2 =>
    edgeFlat e1.data.source e1.data.target e1.data.type ≠
    edgeFlat e2.data.source e2.data.target e2.data.type)

theorem flatDistinct_addEdge {b : Builder} (h : FlatDistinct b.edges) (s t ty l : String) :
    FlatDistinct (addEdge b s t ty l).edges := by
  simp only [addEdge]
  split
  · exact h
  · rename_i hany
    rw [Bool.not_eq_true, List.any_eq_false] at hany
    unfold FlatDistinct
    rw [List.pairwise_append]
    refine ⟨h, by simp, ?_⟩
    intro e he e' he'
    simp at he'
    subst he'
    have := hany e he
    simpa using this

/-! ## Directory-walk termination analysis (claim C9 machinery) -/

/-- Termination measure for the `dirname` iteration. -/
def dirnameMeasure (p : String) : Nat :=
  if p = "." then 0 else p.length + 1

/-- Number of slashes in a path. -/
def slashCount (p : String) : Nat :=
  p.data.count '/'

/-- Depth of a path: its number of `/`-separated segments. -/
def pathDepth (p : String) : Nat :=
  slashCount p + 1

theorem dirname_of_data {s : String} {c0 : Char} {t : List Char} (h : s.data = c0 :: t) :
    dirname s =
      (if (t.reverse.dropWhile (· = '/')).dropWhile (· ≠ '/') = [] then
        (if c0 = '/' then "/" else ".")
       else if c0 = '/' ∧ ((t.reverse.dropWhile (· = '/')).dropWhile (· ≠ '/')).length = 1 then "//"
       else ⟨(c0 :: t).take ((t.reverse.dropWhile (· = '/')).dropWhile (· ≠ '/')).length⟩) := by
  unfold dirname
  rw [h]

theorem dropWhile_head_false {p : Char → Bool} :
    ∀ {l : List Char} {h2 : Char} {r2t : List Char},
      l.dropWhile p = h2 :: r2t → p h2 = false := by
  intro l
  induction l with
  | nil => intro h2 r2t h; simp at h
  | cons a as ih =>
    intro h2 r2t h
    rw [List.dropWhile_cons] at h
    by_cases hp : p a
    · simp [hp] at h
      exact ih h
    · simp [hp] at h
      rw [← h.1]
      simpa using hp

/-- Structure of the scan suffix `r2` when nonempty: it begins with the slash
at which the path is cut, it is preceded in the path by the last segment, and
its length is small enough for the cut to shorten the path. -/
theorem r2_facts {t : List Char}
    (hne : (t.reverse.dropWhile (· = '/')).dropWhile (· ≠ '/') ≠ []) :
    ∃ r2t, (t.reverse.dropWhile (· = '/')).dropWhile (· ≠ '/') = '/' :: r2t ∧
      r2t.length + 2 ≤ t.length ∧
      ∃ u, t = r2t.reverse ++ '/' :: u := by
  cases hc : (t.reverse.dropWhile (· = '/')).dropWhile (· ≠ '/') with
  | nil => exact absurd hc hne
  | cons h2 r2t =>
    have hh2 : h2 = '/' := by
      have := dropWhile_head_false hc
      simpa using this
    subst hh2
    refine ⟨r2t, rfl, ?_, ?_⟩
    · cases hr1 : t.reverse.dropWhile (· = '/') with
      | nil =>
        rw [hr1] at hc
        simp at hc
      | cons h1 r1t =>
        have hh1 : ¬ h1 = '/' := by
          have := dropWhile_head_false hr1
          simpa using this
        rw [hr1, List.dropWhile_cons] at hc
        simp [hh1] at hc
        have hlen2 : r2t.length + 1 ≤ r1t.length := by
          have hlc := congrArg List.length hc
          simp only [List.length_cons] at hlc
          have hsub : (List.dropWhile (fun x => !decide (x = '/')) r1t).length ≤ r1t.length :=
            (List.dropWhile_sublist _).length_le
          omega
        have hlen1 : r1t.length + 1 ≤ t.length := by
          have hle : (t.reverse.dropWhile (· = '/')).length ≤ t.reverse.length :=
            (List.dropWhile_sublist _).length_le
          rw [hr1] at hle
          simp at hle
          omega
        omega
    · have hsuf : ('/' :: r2t) <:+ t.reverse := by
        have s1 : (t.reverse.dropWhile (· = '/')).dropWhile (· ≠ '/') <:+
            t.reverse.dropWhile (· = '/') := List.dropWhile_suffix _
        have s2 : t.reverse.dropWhile (· = '/') <:+ t.reverse := List.dropWhile_suffix _
        rw [hc] at s1
        exact s1.trans s2
      obtain ⟨u', hu'⟩ := hsuf
      refine ⟨u'.reverse, ?_⟩
      have h9 := congrArg List.reverse hu'
      simp at h9
      simpa using h9.symm

theorem dirname_measure_lt : ∀ p : String, dirname p = p ∨
    dirnameMeasure (dirname p) < dirnameMeasure p := by
  intro p
  cases hd : p.data with
  | nil =>
    have hp : p = "" := sext hd
    subst hp
    right
    have h1 : dirname "" = "." := rfl
    rw [h1]
    have h2 : ("" : String) ≠ "." := by decide
    simp [dirnameMeasure, h2]
  | cons c0 t =>
    have hdir := dirname_of_data hd
    have hpne : p ≠ "." → dirnameMeasure p = p.length + 1 := by
      intro h
      simp [dirnameMeasure, h]
    have hplen : p.length = t.length + 1 := by
      show p.data.length = _
      rw [hd]
      simp
    by_cases hr2 : (t.reverse.dropWhile (· = '/')).dropWhile (· ≠ '/') = []
    · rw [hdir, if_pos hr2]
      by_cases hroot : c0 = '/'
      · rw [if_pos hroot]
        cases ht : t with
        | nil =>
          left
          have hps : p = "/" := by
            apply sext
            rw [hd, hroot, ht]
          rw [hps]
        | cons a b =>
          right
          have hne : p ≠ "." := by
            intro h
            rw [h] at hd
            have hh : ("." : String).data = ['.'] := rfl
            rw [hh] at hd
            injection hd with h1 h2
            rw [← h1] at hroot
            exact absurd hroot (by decide)
          rw [hpne hne, hplen, ht]
          have hslashne : ("/" : String) ≠ "." := by decide
          have hsl1 : ("/" : String).length = 1 := rfl
          simp only [dirnameMeasure, if_neg hslashne, List.length_cons, hsl1]
          omega
      · rw [if_neg hroot]
        by_cases hp : p = "."
        · left
          rw [hp]
        · right
          rw [hpne hp]
          simp [dirnameMeasure]
    · obtain ⟨r2t, hr2t, hlen, _⟩ := r2_facts hr2
      have hne : p ≠ "." := by
        intro h
        rw [h] at hd
        have hh : ("." : String).data = ['.'] := rfl
        rw [hh] at hd
        injection hd with h1 h2
        rw [← h2] at hr2
        simp at hr2
      right
      rw [hdir, if_neg hr2]
      by_cases hspec : c0 = '/' ∧ ((t.reverse.dropWhile (· = '/')).dropWhile (· ≠ '/')).length = 1
      · rw [if_pos hspec]
        rw [hpne hne, hplen]
        have h3 : r2t.length = 0 := by
          rw [hr2t] at hspec
          have := hspec.2
          simpa using this
        have hdne : ("//" : String) ≠ "." := by decide
        simp only [dirnameMeasure, if_neg hdne]
        have h2l : ("//" : String).length = 2 := rfl
        omega
      · rw [if_neg hspec]
        rw [hpne hne, hplen]
        have htk : ((c0 :: t).take ((t.reverse.dropWhile (· = '/')).dropWhile (· ≠ '/')).length).length
            = r2t.length + 1 := by
          rw [List.length_take, hr2t]
          simp only [List.length_cons]
          omega
        by_cases hdot : (⟨(c0 :: t).take ((t.reverse.dropWhile (· = '/')).dropWhile (· ≠ '/')).length⟩ : String) = "."
        · rw [hdot]
          simp [dirnameMeasure]
        · simp only [dirnameMeasure, if_neg hdot]
          have hX : (⟨(c0 :: t).take ((t.reverse.dropWhile (· = '/')).dropWhile (· ≠ '/')).length⟩ : String).length
              = r2t.length + 1 := htk
          rw [hX]
          omega

/-- Every `dirname` step either reaches a fixpoint (`"."`, `"/"`), reaches
`"//"` one step from `"/"`, or strictly decreases the slash count. -/
theorem dirname_slash_cases : ∀ p : String, dirname p = p ∨
    dirname (dirname p) = dirname p ∨
    slashCount (dirname p) < slashCount p ∨
    (dirname p = "//" ∧ 2 ≤ slashCount p) := by
  intro p
  cases hd : p.data with
  | nil =>
    have hp : p = "" := sext hd
    subst hp
    right; left
    rfl
  | cons c0 t =>
    have hdir := dirname_of_data hd
    have hsp : slashCount p = List.count '/' (c0 :: t) := by
      unfold slashCount
      rw [hd]
    by_cases hr2 : (t.reverse.dropWhile (· = '/')).dropWhile (· ≠ '/') = []
    · rw [hdir, if_pos hr2]
      by_cases hroot : c0 = '/'
      · rw [if_pos hroot]
        right; left
        rfl
      · rw [if_neg hroot]
        right; left
        rfl
    · obtain ⟨r2t, hr2t, _, u, ht⟩ := r2_facts hr2
      rw [hdir, if_neg hr2]
      by_cases hspec : c0 = '/' ∧ ((t.reverse.dropWhile (· = '/')).dropWhile (· ≠ '/')).length = 1
      · rw [if_pos hspec]
        right; right; right
        refine ⟨rfl, ?_⟩
        rw [hsp, ht, hspec.1]
        have hmem : ('/' : Char) ∈ r2t.reverse ++ '/' :: u := by simp
        have hpos := List.count_pos_iff.mpr hmem
        have h2 : List.count '/' (('/' : Char) :: (r2t.reverse ++ '/' :: u))
            = List.count '/' (r2t.reverse ++ '/' :: u) + 1 := by simp
        rw [h2]
        omega
      · rw [if_neg hspec]
        right; right; left
        have hlen1 : ((t.reverse.dropWhile (· = '/')).dropWhile (· ≠ '/')).length
            = r2t.length + 1 := by
          rw [hr2t]
          rfl
        have htake : (c0 :: t).take ((t.reverse.dropWhile (· = '/')).dropWhile (· ≠ '/')).length
            = c0 :: r2t.reverse := by
          rw [hlen1]
          show c0 :: t.take r2t.length = _
          rw [ht]
          have : r2t.reverse.length = r2t.length := by simp
          rw [List.take_left' this]
        unfold slashCount
        have hdata : (⟨(c0 :: t).take ((t.reverse.dropWhile (· = '/')).dropWhile (· ≠ '/')).length⟩ : String).data
            = c0 :: r2t.reverse := htake
        rw [hdata, hd, ht]
        simp [List.count_cons, List.count_append]

theorem walkFuel_terminal {ws q : String} (h : q = ws ∨ dirname q = q) (f : Nat) :
    folderWalkFuel ws (f + 1) q = some [] := by
  simp only [folderWalkFuel]
  rw [if_pos h]

theorem walkFuel_step {ws q : String} (h : ¬(q = ws ∨ dirname q = q)) (f : Nat) :
    folderWalkFuel ws (f + 1) q = (folderWalkFuel ws f (dirname q)).map (q :: ·) := by
  simp only [folderWalkFuel]
  rw [if_neg h]

/-- Fuel exceeding the measure makes the ancestry walk complete; the number
of visited directories is bounded by the path's depth, and every visited
directory is neither the workspace root nor its own parent. -/
theorem walkFuel_spec (ws : String) : ∀ (f : Nat) (p : String), dirnameMeasure p < f →
    ∃ l, folderWalkFuel ws f p = some l ∧ l.length ≤ pathDepth p ∧
      ∀ q ∈ l, q ≠ ws ∧ dirname q ≠ q := by
  intro f
  induction f with
  | zero => intro p h; omega
  | succ f ih =>
    intro p hm
    by_cases hterm : p = ws ∨ dirname p = p
    · refine ⟨[], walkFuel_terminal hterm f, by simp [pathDepth], by simp⟩
    · push_neg at hterm
      have hdec := (dirname_measure_lt p).resolve_left hterm.2
      have hm' : dirnameMeasure (dirname p) < f := by omega
      obtain ⟨l', hl', hlen', hmem'⟩ := ih (dirname p) hm'
      refine ⟨p :: l', ?_, ?_, ?_⟩
      · rw [walkFuel_step (by push_neg; exact hterm) f, hl']
        rfl
      · rcases dirname_slash_cases p with h | h | h | h
        · exact absurd h hterm.2
        · -- the next directory is a fixpoint, so the continuation is empty
          match f, hm' with
          | f1 + 1, _ =>
            rw [walkFuel_terminal (Or.inr h) f1] at hl'
            injection hl' with hl'
            rw [← hl']
            simp [pathDepth]
        · have : pathDepth (dirname p) ≤ slashCount p := by
            unfold pathDepth
            omega
          simp only [List.length_cons, pathDepth]
          omega
        · -- dirname p = "//", two more steps at most
          rw [h.1] at hl'
          by_cases hws : ("//" : String) = ws
          · match f, hm' with
            | f1 + 1, _ =>
              rw [walkFuel_terminal (Or.inl hws) f1] at hl'
              injection hl' with hl'
              rw [← hl']
              simp [pathDepth]
          · have hm2 : dirnameMeasure (dirname p) = 3 := by rw [h.1]; rfl
            have hf4 : 4 ≤ f := by omega
            match f, hf4 with
            | f1 + 1, _ =>
              have hstep : ¬(("//" : String) = ws ∨ dirname "//" = "//") := by
                push_neg
                exact ⟨hws, by decide⟩
              rw [walkFuel_step hstep f1] at hl'
              have hf1 : 1 ≤ f1 := by omega
              match f1, hf1 with
              | f2 + 1, _ =>
                have hterm2 : ("/" : String) = ws ∨ dirname "/" = "/" := Or.inr (by decide)
                have : dirname ("//" : String) = "/" := by decide
                rw [this, walkFuel_terminal hterm2 f2] at hl'
                simp at hl'
                rw [← hl']
                simp only [List.length_cons, List.length_nil, pathDepth]
                omega
      · intro q hq
        rcases List.mem_cons.mp hq with hq | hq
        · subst hq
          exact ⟨hterm.1, hterm.2⟩
        · exact hmem' q hq

theorem dirnameMeasure_le (p : String) : dirnameMeasure p ≤ p.length + 1 := by
  unfold dirnameMeasure
  split <;> omega

/-- Claim C9 core: the fuel used in `folderWalk` always suffices. -/
theorem folderWalk_spec (ws p : String) :
    folderWalkFuel ws (p.length + 2) p = some (folderWalk ws p) ∧
    (folderWalk ws p).length ≤ pathDepth p ∧
    ∀ q ∈ folderWalk ws p, q ≠ ws ∧ dirname q ≠ q := by
  have hm : dirnameMeasure p < p.length + 2 :=
    Nat.lt_of_le_of_lt (dirnameMeasure_le p) (by omega)
  obtain ⟨l, hl, h1, h2⟩ := walkFuel_spec ws (p.length + 2) p hm
  have he : folderWalk ws p = l := by
    unfold folderWalk
    rw [hl]
    rfl
  rw [he]
  exact ⟨hl, h1, h2⟩

/-- A non-terminal starting point is the first directory the walk registers. -/
theorem folderWalk_head {ws q : String} (h1 : q ≠ ws) (h2 : dirname q ≠ q) :
    ∃ l, folderWalk ws q = q :: l := by
  have hm : dirnameMeasure (dirname q) < q.length + 1 := by
    have ha := (dirname_measure_lt q).resolve_left h2
    have hb := dirnameMeasure_le q
    omega
  obtain ⟨l', hl', _, _⟩ := walkFuel_spec ws (q.length + 1) (dirname q) hm
  refine ⟨l', ?_⟩
  unfold folderWalk
  rw [walkFuel_step (by push_neg; exact ⟨h1, h2⟩) (q.length + 1), hl']
  rfl

/-! ## Reduction lemmas for the `Except` plumbing -/

theorem fieldOf_none {α : Type} : fieldOf (none : Option α) = .error () := rfl

theorem fieldOf_some {α : Type} (x : α) : fieldOf (some x) = .ok x := rfl

theorem bindE_error {α β : Type} (f : α → Except Unit β) :
    (Bind.bind (Except.error () : Except Unit α) f) = Except.error () := rfl

theorem bindE_ok {α β : Type} (x : α) (f : α → Except Unit β) :
    (Bind.bind (Except.ok x : Except Unit α) f) = f x := rfl

/-! ## Set-order deduplication lemmas -/

theorem dedupFirstAux_mem : ∀ (l seen : List String) (x : String),
    x ∈ dedupFirstAux seen l ↔ x ∈ l ∧ x ∉ seen := by
  intro l
  induction l with
  | nil => intro seen x; simp [dedupFirstAux]
  | cons y ys ih =>
    intro seen x
    by_cases hy : y ∈ seen
    · simp only [dedupFirstAux, if_pos hy]
      rw [ih]
      constructor
      · rintro ⟨h1, h2⟩
        exact ⟨List.mem_cons_of_mem _ h1, h2⟩
      · rintro ⟨h1, h2⟩
        rcases List.mem_cons.mp h1 with h | h
        · subst h; exact absurd hy h2
        · exact ⟨h, h2⟩
    · simp only [dedupFirstAux, if_neg hy]
      constructor
      · intro h
        rcases List.mem_cons.mp h with h | h
        · subst h; exact ⟨List.mem_cons_self _ _, hy⟩
        · rw [ih] at h
          refine ⟨List.mem_cons_of_mem _ h.1, ?_⟩
          intro hx
          exact h.2 (List.mem_cons_of_mem _ hx)
      · rintro ⟨h1, h2⟩
        rcases List.mem_cons.mp h1 with h | h
        · subst h; exact List.mem_cons_self _ _
        · by_cases hxy : x = y
          · subst hxy; exact List.mem_cons_self _ _
          · refine List.mem_cons_of_mem _ ?_
            rw [ih]
            refine ⟨h, ?_⟩
            intro hx
            rcases List.mem_cons.mp hx with h3 | h3
            · exact hxy h3
            · exact h2 h3

theorem dedupFirstAux_nodup : ∀ (l seen : List String), (dedupFirstAux seen l).Nodup := by
  intro l
  induction l with
  | nil => intro seen; simp [dedupFirstAux]
  | cons y ys ih =>
    intro seen
    by_cases hy : y ∈ seen
    · simp only [dedupFirstAux, if_pos hy]
      exact ih seen
    · simp only [dedupFirstAux, if_neg hy]
      refine List.nodup_cons.mpr ⟨?_, ih (y :: seen)⟩
      intro hmem
      rw [dedupFirstAux_mem] at hmem
      exact hmem.2 (List.mem_cons_self _ _)

theorem dedupFirst_mem (l : List String) (x : String) : x ∈ dedupFirst l ↔ x ∈ l := by
  unfold dedupFirst
  rw [dedupFirstAux_mem]
  simp

theorem dedupFirst_nodup (l : List String) : (dedupFirst l).Nodup :=
  dedupFirstAux_nodup l []

theorem mem_folderList {ws : String} {files : List FileRec} {q : String} :
    q ∈ folderList ws files ↔ ∃ f ∈ files, q ∈ folderWalk ws (dirname f.path) := by
  unfold folderList
  rw [dedupFirst_mem]
  induction files with
  | nil => simp
  | cons f fs ih =>
    simp only [List.foldr_cons, List.mem_append, ih]
    constructor
    · rintro (h | ⟨g, hg, hq⟩)
      · exact ⟨f, List.mem_cons_self _ _, h⟩
      · exact ⟨g, List.mem_cons_of_mem _ hg, hq⟩
    · rintro ⟨g, hg, hq⟩
      rcases List.mem_cons.mp hg with h | h
      · subst h; exact Or.inl hq
      · exact Or.inr ⟨g, h, hq⟩

theorem folderList_nodup (ws : String) (files : List FileRec) : (folderList ws files).Nodup :=
  dedupFirst_nodup _

/-! ## Nonemptiness of walk elements -/

theorem dirname_ne_empty (s : String) : dirname s ≠ "" := by
  cases hd : s.data with
  | nil =>
    have : dirname s = "." := by unfold dirname; rw [hd]
    rw [this]
    decide
  | cons c0 t =>
    rw [dirname_of_data hd]
    by_cases hr2 : (t.reverse.dropWhile (· = '/')).dropWhile (· ≠ '/') = []
    · rw [if_pos hr2]
      by_cases hroot : c0 = '/'
      · rw [if_pos hroot]; decide
      · rw [if_neg hroot]; decide
    · rw [if_neg hr2]
      obtain ⟨r2t, hr2t, hlen, _⟩ := r2_facts hr2
      by_cases hspec : c0 = '/' ∧ ((t.reverse.dropWhile (· = '/')).dropWhile (· ≠ '/')).length = 1
      · rw [if_pos hspec]; decide
      · rw [if_neg hspec]
        intro h
        have hdata := congrArg String.data h
        have hnil : (c0 :: t).take ((t.reverse.dropWhile (· = '/')).dropWhile (· ≠ '/')).length = [] := hdata
        have := congrArg List.length hnil
        rw [List.length_take, hr2t] at this
        simp at this

theorem walkFuel_mem_dirname {ws : String} : ∀ (f : Nat) (p : String) (l : List String),
    folderWalkFuel ws f p = some l → ∀ q ∈ l, q = p ∨ ∃ r, q = dirname r := by
  intro f
  induction f with
  | zero => intro p l h; simp [folderWalkFuel] at h
  | succ f ih =>
    intro p l h q hq
    by_cases hterm : p = ws ∨ dirname p = p
    · rw [walkFuel_terminal hterm f] at h
      injection h with h
      rw [← h] at hq
      simp at hq
    · rw [walkFuel_step hterm f] at h
      cases hrec : folderWalkFuel ws f (dirname p) with
      | none => rw [hrec] at h; simp at h
      | some l' =>
        rw [hrec] at h
        simp at h
        rw [← h] at hq
        rcases List.mem_cons.mp hq with h1 | h1
        · exact Or.inl h1
        · rcases ih (dirname p) l' hrec q h1 with h2 | h2
          · exact Or.inr ⟨p, h2⟩
          · exact Or.inr h2

theorem folderList_mem_ne_empty {ws : String} {files : List FileRec} :
    ∀ q ∈ folderList ws files, q ≠ "" := by
  intro q hq
  rw [mem_folderList] at hq
  obtain ⟨f, _, hmem⟩ := hq
  have hfuel := (folderWalk_spec ws (dirname f.path)).1
  rcases walkFuel_mem_dirname _ _ _ hfuel q hmem with h | ⟨r, hr⟩
  · rw [h]; exact dirname_ne_empty _
  · rw [hr]; exact dirname_ne_empty _

/-! ## Folder-phase closed form -/

def folderEntriesFrom (start : Nat) : List String → List (String × String)
  | [] => []
  | p :: rest => ("folder" ++ ":" ++ p, mkId "folder" start) :: folderEntriesFrom (start + 1) rest

def folderNodesFrom (w : String) (start : Nat) : List String → List Node
  | [] => []
  | p :: rest =>
    { data := folderNodeData w p (mkId "folder" start) } :: folderNodesFrom w (start + 1) rest

theorem folderFold_spec (w : String) : ∀ (F : List String) (b : Builder),
    F.Nodup →
    (∀ p ∈ F, p ≠ "") →
    (∀ p ∈ F, mapGet b.nodeMap ("folder" ++ ":" ++ p) = none) →
    F.foldl (addFolder w) b =
      { nodes := b.nodes ++ folderNodesFrom w b.nodeIdCounter F
        edges := b.edges
        nodeIdCounter := b.nodeIdCounter + F.length
        nodeMap := b.nodeMap ++ folderEntriesFrom b.nodeIdCounter F } := by
  intro F
  induction F with
  | nil =>
    intro b _ _ _
    simp [folderNodesFrom, folderEntriesFrom]
  | cons p rest ih =>
    intro b hnd hne hfresh
    have hget : mapGet b.nodeMap ("folder" ++ ":" ++ p) = none :=
      hfresh p (List.mem_cons_self _ _)
    have hpne : p ≠ "" := hne p (List.mem_cons_self _ _)
    have hstep : addFolder w b p =
        { nodes := b.nodes ++ [{ data := folderNodeData w p (mkId "folder" b.nodeIdCounter) }]
          edges := b.edges
          nodeIdCounter := b.nodeIdCounter + 1
          nodeMap := b.nodeMap ++ [("folder" ++ ":" ++ p, mkId "folder" b.nodeIdCounter)] } := by
      unfold addFolder
      simp only [getNodeId, hget]
      unfold addNode
      have hkey : nodeKey (folderNodeData w p (mkId "folder" b.nodeIdCounter))
          = "folder" ++ ":" ++ p := by
        unfold nodeKey folderNodeData
        simp [hpne]
      simp only [hkey]
      simp only [hget]
      simp only [Option.getD_none]
      rw [if_neg (by simp)]
      simp only [folderNodeData]
      rw [mapSet_of_none hget]
    rw [List.foldl_cons, hstep, ih]
    · simp only [folderNodesFrom, folderEntriesFrom]
      congr 1 <;> simp [List.append_assoc] <;> omega
    · exact (List.nodup_cons.mp hnd).2
    · intro q hq
      exact hne q (List.mem_cons_of_mem _ hq)
    · intro q hq
      simp only [List.append_assoc]
      rw [mapGet_append]
      rw [hfresh q (List.mem_cons_of_mem _ hq)]
      have hqp : q ≠ p := by
        intro h
        subst h
        exact (List.nodup_cons.mp hnd).1 hq
      simp [mapGet, hqp]
      intro h
      exact absurd (strApp_left_cancel h).symm hqp

/-- State after the folder pass of a fresh build. -/
theorem buildFolderNodes_spec (w : String) (files : List FileRec) :
    buildFolderNodes (some w) Builder.init files =
      { nodes := folderNodesFrom w 0 (folderList w files)
        edges := []
        nodeIdCounter := (folderList w files).length
        nodeMap := folderEntriesFrom 0 (folderList w files) } := by
  show List.foldl (addFolder w) Builder.init (folderList w files) = _
  rw [folderFold_spec w _ Builder.init (folderList_nodup w files) folderList_mem_ne_empty
    (fun p _ => rfl)]
  simp [Builder.init]

theorem folderEntriesFrom_get_none : ∀ (F : List String) (s : Nat) (q : String), q ∉ F →
    mapGet (folderEntriesFrom s F) ("folder" ++ ":" ++ q) = none := by
  intro F
  induction F with
  | nil => intro s q _; rfl
  | cons p rest ih =>
    intro s q hq
    have hqp : p ≠ q := by
      intro h
      subst h
      exact hq (List.mem_cons_self _ _)
    simp only [folderEntriesFrom, mapGet]
    rw [if_neg (fun h => hqp (key_inj h))]
    exact ih (s + 1) q (fun h => hq (List.mem_cons_of_mem _ h))

theorem folderPhase_lookup (w : String) : ∀ (F : List String) (s : Nat) (q : String), q ∈ F →
    ∃ v, mapGet (folderEntriesFrom s F) ("folder" ++ ":" ++ q) = some v ∧
      (∃ i, s ≤ i ∧ i < s + F.length ∧ v = mkId "folder" i) ∧
      { data := folderNodeData w q v } ∈ folderNodesFrom w s F := by
  intro F
  induction F with
  | nil => intro s q hq; simp at hq
  | cons p rest ih =>
    intro s q hq
    by_cases hqp : q = p
    · subst hqp
      refine ⟨mkId "folder" s, ?_, ⟨s, le_refl s, by simp, rfl⟩, ?_⟩
      · simp [folderEntriesFrom, mapGet]
      · simp [folderNodesFrom]
    · have hqrest : q ∈ rest := by
        rcases List.mem_cons.mp hq with h | h
        · exact absurd h hqp
        · exact h
      obtain ⟨v, hv, ⟨i, hi1, hi2, hi3⟩, hnode⟩ := ih (s + 1) q hqrest
      refine ⟨v, ?_, ⟨i, by omega, by simp; omega, hi3⟩, ?_⟩
      · simp only [folderEntriesFrom, mapGet]
        rw [if_neg (fun h => hqp (key_inj h).symm)]
        exact hv
      · simp only [folderNodesFrom]
        exact List.mem_cons_of_mem _ hnode

theorem folderEntriesFrom_values : ∀ (F : List String) (s : Nat) (k v : String),
    (k, v) ∈ folderEntriesFrom s F →
    (∃ p ∈ F, k = "folder" ++ ":" ++ p) ∧ ∃ i, s ≤ i ∧ i < s + F.length ∧ v = mkId "folder" i := by
  intro F
  induction F with
  | nil => intro s k v h; simp [folderEntriesFrom] at h
  | cons p rest ih =>
    intro s k v h
    simp only [folderEntriesFrom] at h
    rcases List.mem_cons.mp h with h | h
    · injection h with h1 h2
      exact ⟨⟨p, List.mem_cons_self _ _, h1⟩, s, le_refl s, by simp, h2⟩
    · obtain ⟨⟨q, hq1, hq2⟩, i, hi1, hi2, hi3⟩ := ih (s + 1) k v h
      exact ⟨⟨q, List.mem_cons_of_mem _ hq1, hq2⟩, i, by omega, by simp; omega, hi3⟩

theorem folderNodesFrom_shape (w : String) : ∀ (F : List String) (s : Nat) (n : Node),
    n ∈ folderNodesFrom w s F →
    n.data.type = "folder" ∧ (∃ i, s ≤ i ∧ i < s + F.length ∧ n.data.id = mkId "folder" i) ∧
      n.data.path ∈ F := by
  intro F
  induction F with
  | nil => intro s n h; simp [folderNodesFrom] at h
  | cons p rest ih =>
    intro s n h
    simp only [folderNodesFrom] at h
    rcases List.mem_cons.mp h with h | h
    · subst h
      exact ⟨rfl, ⟨s, le_refl s, by simp, rfl⟩, by simp [folderNodeData]⟩
    · obtain ⟨h1, ⟨i, hi1, hi2, hi3⟩, h3⟩ := ih (s + 1) n h
      exact ⟨h1, ⟨i, by omega, by simp; omega, hi3⟩, List.mem_cons_of_mem _ h3⟩

theorem folderNodesFrom_paths (w : String) : ∀ (F : List String) (s : Nat),
    (folderNodesFrom w s F).map (fun n => n.data.path) = F := by
  intro F
  induction F with
  | nil => intro s; rfl
  | cons p rest ih =>
    intro s
    simp only [folderNodesFrom, List.map_cons]
    rw [ih]
    rfl

/-! ## Error propagation (claim C2 machinery) -/

def exceptOk {α : Type} : Except Unit α → Bool
  | .ok _ => true
  | .error _ => false

theorem exceptOk_exists {α : Type} {e : Except Unit α} (h : exceptOk e = true) :
    ∃ x, e = .ok x := by
  cases e with
  | ok x => exact ⟨x, rfl⟩
  | error _ => simp [exceptOk] at h

theorem buildFileNode1_err_functions {ws : Option String} {b : Builder} {f : FileRec}
    (h : f.functions = none) : buildFileNode1 ws b f = .error () := by
  simp [buildFileNode1, h, fieldOf_none, bindE_error]

theorem buildFileNode1_err_imports {ws : Option String} {b : Builder} {f : FileRec}
    {fl : List FuncRec} (hf : f.functions = some fl) (h : f.imports = none) :
    buildFileNode1 ws b f = .error () := by
  simp [buildFileNode1, hf, h, fieldOf_some, fieldOf_none, bindE_ok, bindE_error]

theorem buildFileNode1_err_exports {ws : Option String} {b : Builder} {f : FileRec}
    {fl : List FuncRec} {il : List ImportRec} (hf : f.functions = some fl)
    (hi : f.imports = some il) (h : f.exports = none) :
    buildFileNode1 ws b f = .error () := by
  simp [buildFileNode1, hf, hi, h, fieldOf_some, fieldOf_none, bindE_ok, bindE_error]

theorem buildFileNode1_isOk {ws : Option String} {b : Builder} {f : FileRec}
    (hf : f.functions ≠ none) (hi : f.imports ≠ none) (he : f.exports ≠ none) :
    ∃ b', buildFileNode1 ws b f = .ok b' := by
  cases hfv : f.functions with
  | none => exact absurd hfv hf
  | some fl =>
    cases hiv : f.imports with
    | none => exact absurd hiv hi
    | some il =>
      cases hev : f.exports with
      | none => exact absurd hev he
      | some el =>
        apply exceptOk_exists
        simp [exceptOk, buildFileNode1, hfv, hiv, hev, fieldOf_some, bindE_ok]

theorem buildFileNode1_ok_fields {ws : Option String} {b b' : Builder} {f : FileRec}
    (h : buildFileNode1 ws b f = .ok b') :
    f.functions ≠ none ∧ f.imports ≠ none ∧ f.exports ≠ none := by
  refine ⟨?_, ?_, ?_⟩
  · intro hn
    rw [buildFileNode1_err_functions hn] at h
    exact absurd h (by simp)
  · intro hn
    cases hfv : f.functions with
    | none =>
      rw [buildFileNode1_err_functions hfv] at h
      exact absurd h (by simp)
    | some fl =>
      rw [buildFileNode1_err_imports hfv hn] at h
      exact absurd h (by simp)
  · intro hn
    cases hfv : f.functions with
    | none =>
      rw [buildFileNode1_err_functions hfv] at h
      exact absurd h (by simp)
    | some fl =>
      cases hiv : f.imports with
      | none =>
        rw [buildFileNode1_err_imports hfv hiv] at h
        exact absurd h (by simp)
      | some il =>
        rw [buildFileNode1_err_exports hfv hiv hn] at h
        exact absurd h (by simp)

theorem buildFileNodesGo_err {ws : Option String} : ∀ (files : List FileRec) (b : Builder),
    (∃ f ∈ files, f.functions = none ∨ f.imports = none ∨ f.exports = none) →
    buildFileNodesGo ws b files = .error () := by
  intro files
  induction files with
  | nil => intro b h; simp at h
  | cons f rest ih =>
    intro b ⟨g, hg, hbad⟩
    cases hres : buildFileNode1 ws b f with
    | error e =>
      cases e
      simp [buildFileNodesGo, hres, bindE_error]
    | ok b1 =>
      have hfields := buildFileNode1_ok_fields hres
      rcases List.mem_cons.mp hg with h | h
      · subst h
        rcases hbad with h | h | h
        · exact absurd h hfields.1
        · exact absurd h hfields.2.1
        · exact absurd h hfields.2.2
      · simp only [buildFileNodesGo, hres, bindE_ok]
        exact ih b1 ⟨g, h, hbad⟩

theorem buildFileNodesGo_isOk {ws : Option String} : ∀ (files : List FileRec) (b : Builder),
    (∀ f ∈ files, f.functions ≠ none ∧ f.imports ≠ none ∧ f.exports ≠ none) →
    ∃ b', buildFileNodesGo ws b files = .ok b' := by
  intro files
  induction files with
  | nil => intro b _; exact ⟨b, rfl⟩
  | cons f rest ih =>
    intro b hall
    obtain ⟨hf, hi, he⟩ := hall f (List.mem_cons_self _ _)
    obtain ⟨b1, hb1⟩ := @buildFileNode1_isOk ws b f hf hi he
    obtain ⟨b2, hb2⟩ := ih b1 (fun g hg => hall g (List.mem_cons_of_mem _ hg))
    exact ⟨b2, by simp [buildFileNodesGo, hb1, bindE_ok, hb2]⟩

theorem buildEdges1_err_imports {b : Builder} {paths : List String} {f : FileRec}
    (h : f.imports = none) : buildEdges1 b paths f = .error () := by
  simp [buildEdges1, h, fieldOf_none, bindE_error]

theorem buildEdges1_err_calls {b : Builder} {paths : List String} {f : FileRec}
    {il : List ImportRec} {fn : FuncRec} {fl : List FuncRec}
    (hi : f.imports = some il) (hf : f.functions = some (fn :: fl)) (hc : f.calls = none) :
    buildEdges1 b paths f = .error () := by
  simp [buildEdges1, hi, hf, hc, fieldOf_some, fieldOf_none, bindE_ok, bindE_error,
    List.foldlM_cons]

theorem buildEdges1_isOk {b : Builder} {paths : List String} {f : FileRec}
    {il : List ImportRec} {fl : List FuncRec}
    (hi : f.imports = some il) (hf : f.functions = some fl)
    (hc : f.calls ≠ none ∨ fl = []) :
    ∃ b', buildEdges1 b paths f = .ok b' := by
  apply exceptOk_exists
  cases fl with
  | nil => simp [exceptOk, buildEdges1, hi, hf, fieldOf_some, bindE_ok]
  | cons fn fl' =>
    rcases hc with hc | hc
    · obtain ⟨cl, hcv⟩ := Option.ne_none_iff_exists'.mp hc
      simp [exceptOk, buildEdges1, hi, hf, hcv, fieldOf_some, bindE_ok]
    · exact absurd hc (by simp)

theorem buildEdgesGo_err {paths : List String} : ∀ (files : List FileRec) (b : Builder),
    (∀ f ∈ files, f.imports ≠ none) →
    (∃ f ∈ files, f.calls = none ∧ ∃ fn fl, f.functions = some (fn :: fl)) →
    buildEdgesGo b paths files = .error () := by
  intro files
  induction files with
  | nil => intro b _ h; simp at h
  | cons f rest ih =>
    intro b himp ⟨g, hg, hcalls, fn, fl, hfuncs⟩
    cases hres : buildEdges1 b paths f with
    | error e =>
      cases e
      simp [buildEdgesGo, hres, bindE_error]
    | ok b1 =>
      rcases List.mem_cons.mp hg with h | h
      · subst h
        cases hiv : g.imports with
        | none => exact absurd hiv (himp g (List.mem_cons_self _ _))
        | some il =>
          rw [buildEdges1_err_calls hiv hfuncs hcalls] at hres
          exact absurd hres (by simp)
      · simp only [buildEdgesGo, hres, bindE_ok]
        exact ih b1 (fun q hq => himp q (List.mem_cons_of_mem _ hq))
          ⟨g, h, hcalls, fn, fl, hfuncs⟩

theorem buildEdgesGo_isOk {paths : List String} : ∀ (files : List FileRec) (b : Builder),
    (∀ f ∈ files, f.imports ≠ none ∧ f.functions ≠ none ∧
      (f.calls ≠ none ∨ f.functions = some [])) →
    ∃ b', buildEdgesGo b paths files = .ok b' := by
  intro files
  induction files with
  | nil => intro b _; exact ⟨b, rfl⟩
  | cons f rest ih =>
    intro b hall
    obtain ⟨hi, hf, hc⟩ := hall f (List.mem_cons_self _ _)
    obtain ⟨il, hiv⟩ := Option.ne_none_iff_exists'.mp hi
    obtain ⟨fl, hfv⟩ := Option.ne_none_iff_exists'.mp hf
    have hc' : f.calls ≠ none ∨ fl = [] := by
      rcases hc with hc | hc
      · exact Or.inl hc
      · right
        rw [hfv] at hc
        injection hc with hc
    obtain ⟨b1, hb1⟩ := @buildEdges1_isOk b paths f il fl hiv hfv hc'
    obtain ⟨b2, hb2⟩ := ih b1 (fun g hg => hall g (List.mem_cons_of_mem _ hg))
    exact ⟨b2, by simp [buildEdgesGo, hb1, bindE_ok, hb2]⟩

/-! ## Frame lemmas across the build phases -/

theorem addNode_nodes_cases (b : Builder) (nd : NodeData) :
    (addNode b nd).2.nodes = b.nodes ∨ (addNode b nd).2.nodes = b.nodes ++ [{ data := nd }] := by
  simp only [addNode]
  split
  · exact Or.inl rfl
  · exact Or.inr rfl

theorem addFolder_edges (w : String) (b : Builder) (p : String) :
    (addFolder w b p).edges = b.edges := by
  unfold addFolder
  rw [addNode_edges, getNodeId_edges]

theorem buildFolderNodes_edges (ws : Option String) (b : Builder) (files : List FileRec) :
    (buildFolderNodes ws b files).edges = b.edges := by
  cases ws with
  | none => rfl
  | some w =>
    show (List.foldl (addFolder w) b (folderList w files)).edges = b.edges
    refine foldl_preserve (P := fun s => s.edges = b.edges) ?_ (folderList w files) b rfl
    intro s p hp
    rw [addFolder_edges, hp]

/-- The edge-pass frame: nodes and the identity map are untouched, and the
edges list is only extended with `imports` and `calls` edges. -/
def EdgeFrame (b0 b : Builder) : Prop :=
  b.nodes = b0.nodes ∧ b.nodeMap = b0.nodeMap ∧
  ∃ added, b.edges = b0.edges ++ added ∧
    ∀ e ∈ added, e.data.type = "imports" ∨ e.data.type = "calls"

theorem EdgeFrame_refl (b : Builder) : EdgeFrame b b :=
  ⟨rfl, rfl, [], by simp, by simp⟩

theorem EdgeFrame_trans {a b c : Builder} (h1 : EdgeFrame a b) (h2 : EdgeFrame b c) :
    EdgeFrame a c := by
  obtain ⟨hn1, hm1, ad1, he1, ht1⟩ := h1
  obtain ⟨hn2, hm2, ad2, he2, ht2⟩ := h2
  refine ⟨hn2.trans hn1, hm2.trans hm1, ad1 ++ ad2, ?_, ?_⟩
  · rw [he2, he1, List.append_assoc]
  · intro e he
    rcases List.mem_append.mp he with h | h
    · exact ht1 e h
    · exact ht2 e h

theorem EdgeFrame_getNodeId (b : Builder) (t i : String) : EdgeFrame b (getNodeId b t i).2 :=
  ⟨getNodeId_nodes b t i, getNodeId_nodeMap b t i, [],
    by rw [getNodeId_edges]; simp, by simp⟩

theorem EdgeFrame_addEdge (b : Builder) (s t l : String) {ty : String}
    (hty : ty = "imports" ∨ ty = "calls") : EdgeFrame b (addEdge b s t ty l) := by
  refine ⟨addEdge_nodes b s t ty l, addEdge_nodeMap b s t ty l, ?_⟩
  rcases addEdge_edges b s t ty l with h | h
  · exact ⟨[], by rw [h]; simp, by simp⟩
  · refine ⟨_, h, ?_⟩
    intro e he
    simp at he
    subst he
    exact hty

theorem EdgeFrame_extLoop (src : String) (paths : List String) :
    ∀ (exts : List String) (b : Builder), EdgeFrame b (extLoop b src paths exts).2 := by
  intro exts
  induction exts with
  | nil => intro b; exact EdgeFrame_refl b
  | cons ext rest ih =>
    intro b
    simp only [extLoop]
    by_cases h1 : paths.contains (src ++ ext)
    · simp only [if_pos h1]
      exact EdgeFrame_getNodeId b "file" (src ++ ext)
    · simp only [if_neg h1]
      by_cases h2 : paths.contains (pathJoin src ("index" ++ ext))
      · simp only [if_pos h2]
        exact EdgeFrame_getNodeId b "file" (pathJoin src ("index" ++ ext))
      · simp only [if_neg h2]
        exact ih b

theorem EdgeFrame_resolve (b : Builder) (src : String) (paths : List String) :
    EdgeFrame b (resolveImportTarget b src paths).2 := by
  unfold resolveImportTarget
  by_cases h1 : paths.contains src
  · simp only [if_pos h1]
    exact EdgeFrame_getNodeId b "file" src
  · simp only [if_neg h1]
    rcases hres : extLoop b src paths extList with ⟨o, b1⟩
    have hf1 : EdgeFrame b b1 := by
      have := EdgeFrame_extLoop src paths extList b
      rw [hres] at this
      exact this
    cases o with
    | some id => exact hf1
    | none =>
      cases hfind : paths.find? (fun fp => strEndsWith fp src || strIncludes fp src) with
      | none => exact hf1
      | some fp =>
        exact EdgeFrame_trans hf1 (EdgeFrame_getNodeId b1 "file" fp)

theorem EdgeFrame_importEdges (b : Builder) (fid : String) (paths : List String)
    (il : List ImportRec) : EdgeFrame b (importEdges b fid paths il) := by
  unfold importEdges
  refine foldl_preserve (P := EdgeFrame b) ?_ il b (EdgeFrame_refl b)
  intro s imp hp
  refine EdgeFrame_trans hp ?_
  rcases hres : resolveImportTarget s imp.source paths with ⟨o, b1⟩
  have hf1 : EdgeFrame s b1 := by
    have := EdgeFrame_resolve s imp.source paths
    rw [hres] at this
    exact this
  cases o with
  | some t =>
    simp only []
    exact EdgeFrame_trans hf1 (EdgeFrame_addEdge b1 _ _ _ (Or.inl rfl))
  | none => exact hf1

theorem EdgeFrame_callEdges (b : Builder) (fpath : String) (fns : List FuncRec)
    (fid : String) (func : FuncRec) (calls : List CallRec) :
    EdgeFrame b (callEdgesOfFunc b fpath fns fid func calls) := by
  unfold callEdgesOfFunc
  refine foldl_preserve (P := EdgeFrame b) ?_ calls b (EdgeFrame_refl b)
  intro s call hp
  refine EdgeFrame_trans hp ?_
  by_cases hin : func.line ≤ call.line ∧ call.line ≤ func.endLine
  · simp only [if_pos hin]
    cases hfind : fns.find? (fun f => f.name = call.name) with
    | none => exact EdgeFrame_refl s
    | some tf =>
      exact EdgeFrame_trans (EdgeFrame_getNodeId s "function" _)
        (EdgeFrame_addEdge _ _ _ _ (Or.inr rfl))
  · simp only [if_neg hin]
    exact EdgeFrame_refl s

theorem EdgeFrame_edgeFuncStep (fpath : String) (fns : List FuncRec) (calls : List CallRec)
    (b : Builder) (func : FuncRec) : EdgeFrame b (edgeFuncStep fpath fns calls b func) := by
  unfold edgeFuncStep
  exact EdgeFrame_trans (EdgeFrame_getNodeId b "function" _) (EdgeFrame_callEdges _ _ _ _ _ _)

theorem buildEdges1_err_functions {b : Builder} {paths : List String} {f : FileRec}
    {il : List ImportRec} (hi : f.imports = some il) (hf : f.functions = none) :
    buildEdges1 b paths f = .error () := by
  simp [buildEdges1, hi, hf, fieldOf_some, fieldOf_none, bindE_ok, bindE_error]

theorem EdgeFrame_buildEdges1 {b b' : Builder} {paths : List String} {f : FileRec}
    (h : buildEdges1 b paths f = .ok b') : EdgeFrame b b' := by
  cases hiv : f.imports with
  | none =>
    rw [buildEdges1_err_imports hiv] at h
    exact absurd h (by simp)
  | some il =>
    cases hfv : f.functions with
    | none =>
      rw [buildEdges1_err_functions hiv hfv] at h
      exact absurd h (by simp)
    | some fl =>
      cases fl with
      | nil =>
        simp only [buildEdges1, hiv, hfv, fieldOf_some, bindE_ok] at h
        injection h with h
        rw [← h]
        exact EdgeFrame_trans (EdgeFrame_getNodeId b "file" f.path)
          (EdgeFrame_importEdges _ _ _ _)
      | cons fn fl' =>
        cases hcv : f.calls with
        | none =>
          rw [buildEdges1_err_calls hiv hfv hcv] at h
          exact absurd h (by simp)
        | some cl =>
          simp only [buildEdges1, hiv, hfv, hcv, fieldOf_some, bindE_ok] at h
          injection h with h
          rw [← h]
          exact foldl_preserve (P := EdgeFrame b)
            (fun s func hp => EdgeFrame_trans hp (EdgeFrame_edgeFuncStep _ _ _ s func)) _ _
            (EdgeFrame_trans (EdgeFrame_getNodeId b "file" f.path)
              (EdgeFrame_importEdges _ _ _ _))

theorem EdgeFrame_buildEdgesGo {paths : List String} : ∀ (files : List FileRec) (b b' : Builder),
    buildEdgesGo b paths files = .ok b' → EdgeFrame b b' := by
  intro files
  induction files with
  | nil =>
    intro b b' h
    injection h with h
    rw [← h]
    exact EdgeFrame_refl b
  | cons f rest ih =>
    intro b b' h
    cases hres : buildEdges1 b paths f with
    | error e =>
      cases e
      rw [show buildEdgesGo b paths (f :: rest) = .error () by
        simp [buildEdgesGo, hres, bindE_error]] at h
      exact absurd h (by simp)
    | ok b1 =>
      simp only [buildEdgesGo, hres, bindE_ok] at h
      exact EdgeFrame_trans (EdgeFrame_buildEdges1 hres) (ih b1 b' h)

/-! ## Parametric preservation through the build phases -/

theorem funcNodeStep_preserve {P : Builder → Prop}
    (hget : ∀ b t i, P b → P (getNodeId b t i).2)
    (haddN : ∀ b nd, nd.type = "file" ∨ nd.type = "function" → P b → P (addNode b nd).2)
    (haddE : ∀ b s t l, P b → P (addEdge b s t "contains" l))
    (fpath fid : String) (b : Builder) (func : FuncRec) (hp : P b) :
    P (funcNodeStep fpath fid b func) := by
  unfold funcNodeStep
  exact haddE _ _ _ _ (haddN _ _ (Or.inr rfl) (hget _ _ _ hp))

theorem fileNodeBody_preserve {P : Builder → Prop}
    (hget : ∀ b t i, P b → P (getNodeId b t i).2)
    (haddN : ∀ b nd, nd.type = "file" ∨ nd.type = "function" → P b → P (addNode b nd).2)
    (haddE : ∀ b s t l, P b → P (addEdge b s t "contains" l))
    (ws : Option String) (f : FileRec) (fl : List FuncRec) (il : List ImportRec)
    (el : List String) {b : Builder} (hp : P b) : P (fileNodeBody ws b f fl il el) := by
  simp only [fileNodeBody]
  refine foldl_preserve ?_ _ _ ?_
  · intro s func hp'
    exact funcNodeStep_preserve hget haddN haddE _ _ s func hp'
  · split
    · refine haddE _ _ _ _ (hget _ "folder" (dirname f.path) (haddN _ _ ?_ (hget b "file" f.path hp)))
      exact Or.inl rfl
    · refine hget _ "folder" (dirname f.path) (haddN _ _ ?_ (hget b "file" f.path hp))
      exact Or.inl rfl

theorem filePhase_preserve {ws : Option String} {P : Builder → Prop}
    (hget : ∀ b t i, P b → P (getNodeId b t i).2)
    (haddN : ∀ b nd, nd.type = "file" ∨ nd.type = "function" → P b → P (addNode b nd).2)
    (haddE : ∀ b s t l, P b → P (addEdge b s t "contains" l)) :
    ∀ (files : List FileRec) (b b' : Builder),
      buildFileNodesGo ws b files = .ok b' → P b → P b' := by
  intro files
  induction files with
  | nil =>
    intro b b' h hp
    injection h with h
    rw [← h]
    exact hp
  | cons f rest ih =>
    intro b b' h hp
    cases hres : buildFileNode1 ws b f with
    | error e =>
      cases e
      rw [show buildFileNodesGo ws b (f :: rest) = .error () by
        simp [buildFileNodesGo, hres, bindE_error]] at h
      exact absurd h (by simp)
    | ok b1 =>
      simp only [buildFileNodesGo, hres, bindE_ok] at h
      obtain ⟨hfne, hine, hene⟩ := buildFileNode1_ok_fields hres
      obtain ⟨fl, hfv⟩ := Option.ne_none_iff_exists'.mp hfne
      obtain ⟨il, hiv⟩ := Option.ne_none_iff_exists'.mp hine
      obtain ⟨el, hev⟩ := Option.ne_none_iff_exists'.mp hene
      have hred : buildFileNode1 ws b f = .ok (fileNodeBody ws b f fl il el) := by
        simp [buildFileNode1, hfv, hiv, hev, fieldOf_some, bindE_ok]
      rw [hred] at hres
      injection hres with hres
      rw [← hres] at h
      exact ih _ b' h (fileNodeBody_preserve hget haddN haddE ws f fl il el hp)

theorem extLoop_preserve {P : Builder → Prop}
    (hget : ∀ b t i, P b → P (getNodeId b t i).2) (src : String) (paths : List String) :
    ∀ (exts : List String) (b : Builder), P b → P (extLoop b src paths exts).2 := by
  intro exts
  induction exts with
  | nil => intro b hp; exact hp
  | cons ext rest ih =>
    intro b hp
    simp only [extLoop]
    by_cases h1 : paths.contains (src ++ ext)
    · simp only [if_pos h1]
      exact hget b "file" (src ++ ext) hp
    · simp only [if_neg h1]
      by_cases h2 : paths.contains (pathJoin src ("index" ++ ext))
      · simp only [if_pos h2]
        exact hget b "file" _ hp
      · simp only [if_neg h2]
        exact ih b hp

theorem resolve_preserve {P : Builder → Prop}
    (hget : ∀ b t i, P b → P (getNodeId b t i).2) (b : Builder) (src : String)
    (paths : List String) (hp : P b) : P (resolveImportTarget b src paths).2 := by
  unfold resolveImportTarget
  by_cases h1 : paths.contains src
  · simp only [if_pos h1]
    exact hget b "file" src hp
  · simp only [if_neg h1]
    rcases hres : extLoop b src paths extList with ⟨o, b1⟩
    have hp1 : P b1 := by
      have := extLoop_preserve hget src paths extList b hp
      rw [hres] at this
      exact this
    cases o with
    | some id => exact hp1
    | none =>
      cases hfind : paths.find? (fun fp => strEndsWith fp src || strIncludes fp src) with
      | none => exact hp1
      | some fp => exact hget b1 "file" fp hp1

theorem edgePhase_preserve {paths : List String} {P : Builder → Prop}
    (hget : ∀ b t i, P b → P (getNodeId b t i).2)
    (haddE : ∀ b s t ty l, ty = "imports" ∨ ty = "calls" → P b → P (addEdge b s t ty l)) :
    ∀ (files : List FileRec) (b b' : Builder),
      buildEdgesGo b paths files = .ok b' → P b → P b' := by
  have himp : ∀ (b : Builder) (fid : String) (il : List ImportRec),
      P b → P (importEdges b fid paths il) := by
    intro b fid il hp
    unfold importEdges
    refine foldl_preserve ?_ il b hp
    intro s imp hp'
    rcases hres : resolveImportTarget s imp.source paths with ⟨o, b1⟩
    have hp1 : P b1 := by
      have := resolve_preserve hget s imp.source paths hp'
      rw [hres] at this
      exact this
    cases o with
    | some t => exact haddE b1 _ _ _ _ (Or.inl rfl) hp1
    | none => exact hp1
  have hcall : ∀ (b : Builder) (fpath : String) (fns : List FuncRec) (fid : String)
      (func : FuncRec) (calls : List CallRec), P b →
      P (callEdgesOfFunc b fpath fns fid func calls) := by
    intro b fpath fns fid func calls hp
    unfold callEdgesOfFunc
    refine foldl_preserve ?_ calls b hp
    intro s call hp'
    by_cases hin : func.line ≤ call.line ∧ call.line ≤ func.endLine
    · simp only [if_pos hin]
      cases hfind : fns.find? (fun g => g.name = call.name) with
      | none => exact hp'
      | some tf => exact haddE _ _ _ _ _ (Or.inr rfl) (hget s "function" _ hp')
    · simp only [if_neg hin]
      exact hp'
  have hone : ∀ (b b' : Builder) (f : FileRec), buildEdges1 b paths f = .ok b' → P b → P b' := by
    intro b b' f h hp
    cases hiv : f.imports with
    | none => rw [buildEdges1_err_imports hiv] at h; exact absurd h (by simp)
    | some il =>
      cases hfv : f.functions with
      | none => rw [buildEdges1_err_functions hiv hfv] at h; exact absurd h (by simp)
      | some fl =>
        cases fl with
        | nil =>
          simp only [buildEdges1, hiv, hfv, fieldOf_some, bindE_ok] at h
          injection h with h
          rw [← h]
          exact himp _ _ _ (hget b "file" f.path hp)
        | cons fn fl' =>
          cases hcv : f.calls with
          | none => rw [buildEdges1_err_calls hiv hfv hcv] at h; exact absurd h (by simp)
          | some cl =>
            simp only [buildEdges1, hiv, hfv, hcv, fieldOf_some, bindE_ok] at h
            injection h with h
            rw [← h]
            refine foldl_preserve ?_ _ _ (himp _ _ _ (hget b "file" f.path hp))
            intro s func hp'
            unfold edgeFuncStep
            exact hcall _ _ _ _ _ _ (hget s "function" _ hp')
  intro files
  induction files with
  | nil =>
    intro b b' h hp
    injection h with h
    rw [← h]
    exact hp
  | cons f rest ih =>
    intro b b' h hp
    cases hres : buildEdges1 b paths f with
    | error e =>
      cases e
      rw [show buildEdgesGo b paths (f :: rest) = .error () by
        simp [buildEdgesGo, hres, bindE_error]] at h
      exact absurd h (by simp)
    | ok b1 =>
      simp only [buildEdgesGo, hres, bindE_ok] at h
      exact ih b1 b' h (hone b b1 f hres hp)

/-! ## Decomposing a successful build -/

theorem buildGraph_ok_cases {ws : Option String} {b : Builder} {files : List FileRec}
    {g : GraphData} {bf : Builder} (h : buildGraph ws b files = .ok (g, bf)) :
    (files = [] ∧ g = getGraphData Builder.init ∧ bf = Builder.init) ∨
    (files ≠ [] ∧ ∃ s2 s3,
      buildFileNodesGo ws (buildFolderNodes ws Builder.init files) files = .ok s2 ∧
      buildEdgesGo s2 (dedupFirst (files.map (·.path))) files = .ok s3 ∧
      g = getGraphData s3 ∧ bf = s3) := by
  unfold buildGraph resetB at h
  by_cases hemp : files.isEmpty
  · left
    rw [if_pos hemp] at h
    injection h with h
    injection h with h1 h2
    exact ⟨List.isEmpty_iff.mp hemp, h1.symm, h2.symm⟩
  · right
    rw [if_neg hemp] at h
    replace h : (Bind.bind (buildFileNodes ws (buildFolderNodes ws Builder.init files) files)
        (fun b => Bind.bind (buildEdges b files)
          (fun b => Except.ok (getGraphData b, b)))) = .ok (g, bf) := h
    refine ⟨fun hn => hemp (by rw [hn]; rfl), ?_⟩
    cases hfn : buildFileNodes ws (buildFolderNodes ws Builder.init files) files with
    | error e =>
      cases e
      rw [hfn, bindE_error] at h
      exact absurd h (by simp)
    | ok s2 =>
      rw [hfn] at h
      simp only [bindE_ok] at h
      cases hbe : buildEdges s2 files with
      | error e =>
        cases e
        rw [hbe, bindE_error] at h
        exact absurd h (by simp)
      | ok s3 =>
        rw [hbe] at h
        simp only [bindE_ok] at h
        injection h with h
        injection h with h1 h2
        exact ⟨s2, s3, hfn, hbe, h1.symm, h2.symm⟩

/-! ## FlatDistinct across a whole build (claim C5) -/

theorem flatDistinct_filePhase {ws : Option String} {files : List FileRec} {b b' : Builder}
    (h : buildFileNodesGo ws b files = .ok b') (hp : FlatDistinct b.edges) :
    FlatDistinct b'.edges := by
  refine filePhase_preserve (P := fun s => FlatDistinct s.edges) ?_ ?_ ?_ files b b' h hp
  · intro s t i hx
    rw [getNodeId_edges]
    exact hx
  · intro s nd _ hx
    rw [addNode_edges]
    exact hx
  · intro s x y l hx
    exact flatDistinct_addEdge hx x y "contains" l

theorem flatDistinct_edgePhase {paths : List String} {files : List FileRec} {b b' : Builder}
    (h : buildEdgesGo b paths files = .ok b') (hp : FlatDistinct b.edges) :
    FlatDistinct b'.edges := by
  refine edgePhase_preserve (P := fun s => FlatDistinct s.edges) ?_ ?_ files b b' h hp
  · intro s t i hx
    rw [getNodeId_edges]
    exact hx
  · intro s x y ty l _ hx
    exact flatDistinct_addEdge hx x y ty l

theorem flatDistinct_buildGraph {ws : Option String} {b : Builder} {files : List FileRec}
    {g : GraphData} {bf : Builder} (h : buildGraph ws b files = .ok (g, bf)) :
    FlatDistinct g.edges := by
  rcases buildGraph_ok_cases h with ⟨_, hg, _⟩ | ⟨_, s2, s3, hfn, hbe, hg, _⟩
  · rw [hg]
    show FlatDistinct ([] : List Edge)
    exact List.Pairwise.nil
  · rw [hg]
    show FlatDistinct s3.edges
    have h1 : FlatDistinct (buildFolderNodes ws Builder.init files).edges := by
      rw [buildFolderNodes_edges]
      exact List.Pairwise.nil
    exact flatDistinct_edgePhase hbe (flatDistinct_filePhase hfn h1)

/-! ## Only file/function nodes are added after the folder pass (claim C9) -/

def NodesExtFF (b0 b : Builder) : Prop :=
  ∃ added, b.nodes = b0.nodes ++ added ∧
    ∀ n ∈ added, n.data.type = "file" ∨ n.data.type = "function"

theorem nodesExtFF_filePhase {ws : Option String} {files : List FileRec} {b b' : Builder}
    (h : buildFileNodesGo ws b files = .ok b') : NodesExtFF b b' := by
  refine filePhase_preserve (P := NodesExtFF b) ?_ ?_ ?_ files b b' h ⟨[], by simp, by simp⟩
  · intro s t i ⟨added, ha, ht⟩
    exact ⟨added, by rw [getNodeId_nodes]; exact ha, ht⟩
  · intro s nd hnd ⟨added, ha, ht⟩
    rcases addNode_nodes_cases s nd with hc | hc
    · exact ⟨added, by rw [hc]; exact ha, ht⟩
    · refine ⟨added ++ [{ data := nd }], ?_, ?_⟩
      · rw [hc, ha, List.append_assoc]
      · intro n hn
        rcases List.mem_append.mp hn with h1 | h1
        · exact ht n h1
        · simp at h1
          rw [h1]
          exact hnd
  · intro s x y l ⟨added, ha, ht⟩
    exact ⟨added, by rw [addEdge_nodes]; exact ha, ht⟩

/-! ## Reduction of a nonempty build -/

theorem buildGraph_reduces {ws : Option String} {b : Builder} {files : List FileRec}
    (hne : files ≠ []) :
    buildGraph ws b files =
      Bind.bind (buildFileNodesGo ws (buildFolderNodes ws Builder.init files) files)
        (fun s2 => Bind.bind (buildEdgesGo s2 (dedupFirst (files.map (·.path))) files)
          (fun s3 => Except.ok (getGraphData s3, s3))) := by
  unfold buildGraph resetB
  rw [if_neg (fun hemp => hne (List.isEmpty_iff.mp hemp))]
  rfl

/-! ## Claim theorems -/

/-- C7: `buildGraph` resets the id counter, node map and collections at the
start of every call, so its result does not depend on the engine state it is
invoked on: two consecutive builds of the same input (the second starting
from whatever state the first left behind) return identical payloads,
including identical generated id strings. -/
theorem C7_build_deterministic (ws : Option String) (files : List FileRec) (b b' : Builder) :
    buildGraph ws b files = buildGraph ws b' files := rfl

/-- C10: `filterByNodeType` reads the store without mutating it: the builder
it returns is the receiver itself, so retrieving the full graph afterwards
yields the same payload as before the filter call. -/
theorem C10_filter_pure (b : Builder) (types : List String) :
    (filterByNodeType b types).2 = b ∧
    getGraphData (filterByNodeType b types).2 = getGraphData b :=
  ⟨rfl, rfl⟩

/-- A File Record with every array field missing. -/
def badRecC2 : FileRec :=
  { path := "/ws/a.js", language := "javascript",
    functions := none, imports := some [], exports := some [], calls := some [] }

/-- C2 counterexample: a File Record whose `functions` field is missing makes
`buildGraph` throw (here: return an error) instead of being treated as an
empty sequence. -/
theorem C2_counterexample :
    buildGraph (some "/ws") Builder.init [badRecC2] = .error () := by rfl

/-- C2 (amended): `buildGraph` does not default missing array fields to
empty.  A record missing `functions`, `imports` or `exports` aborts the
whole build with an error; a record missing `calls` aborts exactly when it
has at least one function (the JS code only dereferences `calls` inside the
function loop), so a record missing `calls` whose `functions` array is empty
still builds; and whenever every record has `functions`, `imports` and
`exports` present, and `calls` present or an empty `functions` array, the
build returns a graph.  The three parts cover every input, so together they
characterize exactly when `buildGraph` throws. -/
theorem C2_missing_fields_throw :
    (∀ (ws : Option String) (b : Builder) (files : List FileRec),
      (∃ f ∈ files, f.functions = none ∨ f.imports = none ∨ f.exports = none) →
      buildGraph ws b files = .error ()) ∧
    (∀ (ws : Option String) (b : Builder) (files : List FileRec),
      (∀ f ∈ files, f.functions ≠ none ∧ f.imports ≠ none ∧ f.exports ≠ none) →
      (∃ f ∈ files, f.calls = none ∧ ∃ fn fl, f.functions = some (fn :: fl)) →
      buildGraph ws b files = .error ()) ∧
    (∀ (ws : Option String) (b : Builder) (files : List FileRec),
      (∀ f ∈ files, f.functions ≠ none ∧ f.imports ≠ none ∧ f.exports ≠ none ∧
        (f.calls ≠ none ∨ f.functions = some [])) →
      ∃ g bf, buildGraph ws b files = .ok (g, bf)) := by
  refine ⟨?_, ?_, ?_⟩
  · intro ws b files hbad
    have hne : files ≠ [] := by
      rintro rfl
      obtain ⟨f, hf, _⟩ := hbad
      simp at hf
    rw [buildGraph_reduces hne, buildFileNodesGo_err files _ hbad, bindE_error]
  · intro ws b files hall hbad
    have hne : files ≠ [] := by
      rintro rfl
      obtain ⟨f, hf, _⟩ := hbad
      simp at hf
    rw [buildGraph_reduces hne]
    obtain ⟨s2, hs2⟩ := buildFileNodesGo_isOk files _ hall
    rw [hs2, bindE_ok]
    rw [buildEdgesGo_err files s2 (fun f hf => (hall f hf).2.1) hbad, bindE_error]
  · intro ws b files hall
    cases hfe : files with
    | nil => exact ⟨_, _, rfl⟩
    | cons f0 rest =>
      rw [← hfe, buildGraph_reduces (by rw [hfe]; simp)]
      obtain ⟨s2, hs2⟩ := buildFileNodesGo_isOk files _
        (fun f hf => ⟨(hall f hf).1, (hall f hf).2.1, (hall f hf).2.2.1⟩)
      rw [hs2, bindE_ok]
      obtain ⟨s3, hs3⟩ := buildEdgesGo_isOk files s2
        (fun f hf => ⟨(hall f hf).2.1, (hall f hf).1, (hall f hf).2.2.2⟩)
      rw [hs3, bindE_ok]
      exact ⟨_, _, rfl⟩

/-- C2 witness: instantiating the amended claim on concrete inputs. -/
theorem C2_witness :
    buildGraph (some "/ws") Builder.init
      [{ path := "/ws/a.js", language := "javascript",
         functions := some [], imports := none, exports := some [], calls := some [] }]
      = .error () ∧
    buildGraph (some "/ws") Builder.init
      [{ path := "/ws/a.js", language := "javascript",
         functions := some [⟨"f", "function", 1, 2, some []⟩], imports := some [],
         exports := some [], calls := none }]
      = .error () ∧
    (∃ g bf, buildGraph (some "/ws") Builder.init
      [{ path := "/ws/a.js", language := "javascript",
         functions := some [], imports := some [], exports := some [], calls := some [] }]
      = .ok (g, bf)) ∧
    ∃ g bf, buildGraph (some "/ws") Builder.init
      [{ path := "/ws/a.js", language := "javascript",
         functions := some [], imports := some [], exports := some [], calls := none }]
      = .ok (g, bf) := by
  refine ⟨?_, ?_, ?_, ?_⟩
  · exact C2_missing_fields_throw.1 (some "/ws") Builder.init _
      ⟨_, List.mem_cons_self _ _, Or.inr (Or.inl rfl)⟩
  · exact C2_missing_fields_throw.2.1 (some "/ws") Builder.init _
      (by intro f hf; simp at hf; subst hf; refine ⟨by simp, by simp, by simp⟩)
      ⟨_, List.mem_cons_self _ _, rfl, _, _, rfl⟩
  · exact C2_missing_fields_throw.2.2 (some "/ws") Builder.init _
      (by intro f hf; simp at hf; subst hf; exact ⟨by simp, by simp, by simp, Or.inl (by simp)⟩)
  · exact C2_missing_fields_throw.2.2 (some "/ws") Builder.init _
      (by intro f hf; simp at hf; subst hf; exact ⟨by simp, by simp, by simp, Or.inr rfl⟩)

/-- Input exercising the function-node identity: one file defining two
functions with different names and different start lines. -/
def twoFuncFile : FileRec :=
  { path := "/ws/a.js", language := "javascript",
    functions := some [⟨"f", "function", 1, 2, some []⟩, ⟨"g", "function", 3, 4, some []⟩],
    imports := some [], exports := some [], calls := some [] }

/-- C1 evidence: although the input file defines the two distinct functions
`f` (line 1) and `g` (line 3), the returned graph contains exactly one
function node (for `f` only).  `addNode` (graph.js 251) keys function nodes
by `function:<file path>` — the `nodeData.path || nodeData.id` fallback —
rather than by the `(file path, name, line)` triple that `getNodeId` was
called with, so the second function of a file is silently dropped. -/
theorem C1_one_function_node_per_file :
    (buildGraph (some "/ws") Builder.init [twoFuncFile]).map
      (fun p => ((p.1.nodes.filter (fun n => n.data.type == "function")).map
        (fun n => n.data.label)))
      = .ok ["f"] := by rfl

/-- Input exercising call-edge endpoints: one file whose single function `f`
(lines 1-5) contains a recursive call of `f` at line 3. -/
def recCallFile : FileRec :=
  { path := "/ws/a.js", language := "javascript",
    functions := some [⟨"f", "function", 1, 5, some []⟩],
    imports := some [], exports := some [], calls := some [⟨"f", 3⟩] }

/-- C3 evidence: the graph contains the nodes `file-0` and `function-2`, yet
the single `calls` edge runs from `function-3` to `function-4` — two ids that
belong to no node (and differ from each other although the call is
recursive).  `getNodeId` (graph.js 305-314) never records the id it
generates, and `addNode` recorded the function node under a different key,
so the `buildEdges` lookups always miss and mint fresh dangling ids. -/
theorem C3_dangling_call_edges :
    (buildGraph (some "/ws") Builder.init [recCallFile]).map
      (fun p => ((p.1.edges.filter (fun e => e.data.type == "calls")).map
          (fun e => (e.data.source, e.data.target)),
        p.1.nodes.map (fun n => n.data.id)))
      = .ok ([("function-3", "function-4")], ["file-0", "function-2"]) := by rfl

/-- Workspace for the import-resolution order: an importer of `/w/u`, plus
both an extension-append candidate `/w/u.jsx` and an index-file candidate
`/w/u/index.js`. -/
def importOrderFiles : List FileRec :=
  [{ path := "/w/a.js", language := "javascript", functions := some [],
     imports := some [⟨"/w/u", "x"⟩], exports := some [], calls := some [] },
   { path := "/w/u.jsx", language := "javascript", functions := some [],
     imports := some [], exports := some [], calls := some [] },
   { path := "/w/u/index.js", language := "javascript", functions := some [],
     imports := some [], exports := some [], calls := some [] }]

/-- C4 counterexample: the extension-append candidate `/w/u.jsx` exists among
the known files, yet the import of `/w/u` is resolved to `/w/u/index.js`
(node `file-4`), not to `/w/u.jsx` (node `file-2`): the loop at graph.js
221-232 tries `source + ".js"` and then `source/index.js` before it ever
tries `source + ".jsx"`, so stage 3 candidates for earlier extensions beat
stage 2 candidates for later ones. -/
theorem C4_counterexample :
    (buildGraph none Builder.init importOrderFiles).map
      (fun p => ((p.1.edges.filter (fun e => e.data.type == "imports")).map
          (fun e => e.data.target),
        (p.1.nodes.filter (fun n => n.data.path == "/w/u/index.js")).map (fun n => n.data.id),
        (p.1.nodes.filter (fun n => n.data.path == "/w/u.jsx")).map (fun n => n.data.id)))
      = .ok (["file-4"], ["file-4"], ["file-2"]) := by rfl

/-- Candidate chain actually tried by `resolveImportTarget`: the exact source
first, then for each extension in order `.js`, `.jsx`, `.ts`, `.tsx`, `.py`
the appended form `source<ext>` immediately followed by `source/index<ext>`. -/
def importCandidates (src : String) : List String :=
  src :: extList.foldr (fun ext acc => (src ++ ext) :: pathJoin src ("index" ++ ext) :: acc) []

theorem extLoop_find (src : String) (paths : List String) :
    ∀ (exts : List String) (b : Builder),
    extLoop b src paths exts =
      match (exts.foldr (fun ext acc => (src ++ ext) :: pathJoin src ("index" ++ ext) :: acc)
          []).find? (fun c => paths.contains c) with
      | some c => (some (getNodeId b "file" c).1, (getNodeId b "file" c).2)
      | none => (none, b) := by
  intro exts
  induction exts with
  | nil => intro b; rfl
  | cons ext rest ih =>
    intro b
    simp only [extLoop, List.foldr_cons]
    by_cases h1 : paths.contains (src ++ ext)
    · rw [if_pos h1]
      rw [List.find?_cons_of_pos _ (by simpa using h1)]
    · rw [if_neg h1]
      rw [List.find?_cons_of_neg _ (by simpa using h1)]
      by_cases h2 : paths.contains (pathJoin src ("index" ++ ext))
      · rw [if_pos h2]
        rw [List.find?_cons_of_pos _ (by simpa using h2)]
      · rw [if_neg h2]
        rw [List.find?_cons_of_neg _ (by simpa using h2)]
        exact ih b

/-- C4 (amended): resolution picks the first present candidate of the chain
`source, source.js, source/index.js, source.jsx, source/index.jsx, …` —
append and index candidates interleaved per extension, not staged — and only
when no candidate matches does the fuzzy ends-with/contains fallback run; a
fully unresolved import yields `none`, and an import resolved to `none`
contributes no edge. -/
theorem C4_resolution_order :
    (∀ (b : Builder) (src : String) (paths : List String),
      resolveImportTarget b src paths =
        match (importCandidates src).find? (fun c => paths.contains c) with
        | some c => (some (getNodeId b "file" c).1, (getNodeId b "file" c).2)
        | none =>
          match paths.find? (fun fp => strEndsWith fp src || strIncludes fp src) with
          | some fp => (some (getNodeId b "file" fp).1, (getNodeId b "file" fp).2)
          | none => (none, b)) ∧
    (∀ (b : Builder) (fid : String) (paths : List String) (imp : ImportRec),
      (resolveImportTarget b imp.source paths).1 = none →
      importEdges b fid paths [imp] = (resolveImportTarget b imp.source paths).2) := by
  constructor
  · intro b src paths
    unfold resolveImportTarget importCandidates
    by_cases h1 : paths.contains src
    · rw [if_pos h1]
      rw [List.find?_cons_of_pos _ (by simpa using h1)]
    · rw [if_neg h1]
      rw [List.find?_cons_of_neg _ (by simpa using h1)]
      rw [extLoop_find src paths extList b]
      cases hfind : (extList.foldr
          (fun ext acc => (src ++ ext) :: pathJoin src ("index" ++ ext) :: acc) []).find?
          (fun c => paths.contains c) with
      | some c => rfl
      | none => rfl
  · intro b fid paths imp hnone
    unfold importEdges
    simp only [List.foldl_cons, List.foldl_nil]
    rcases hres : resolveImportTarget b imp.source paths with ⟨o, b1⟩
    rw [hres] at hnone
    simp at hnone
    subst hnone
    rfl

/-- Builder state used by the C4 witness. -/
def w4Builder : Builder :=
  { nodes := [], edges := [], nodeIdCounter := 0,
    nodeMap := [("file" ++ ":" ++ "/w/u/index.js", "file-4")] }

/-- C4 witness: the amended resolution applied to the counterexample
workspace resolves `/w/u` to the index-file candidate. -/
theorem C4_witness :
    resolveImportTarget w4Builder "/w/u" ["/w/a.js", "/w/u.jsx", "/w/u/index.js"]
      = (some "file-4", w4Builder) ∧
    (resolveImportTarget Builder.init "lodash" ["/w/a.js"]).1 = none ∧
    importEdges Builder.init "file-0" ["/w/a.js"] [⟨"lodash", "x"⟩]
      = (resolveImportTarget Builder.init "lodash" ["/w/a.js"]).2 := by
  refine ⟨?_, ?_, ?_⟩
  · rw [C4_resolution_order.1]
    rfl
  · rfl
  · exact C4_resolution_order.2 Builder.init "file-0" ["/w/a.js"] ⟨"lodash", "x"⟩ (by rfl)

/-- C8 counterexample: after a real build, `filterByNodeType` returns a stats
object carrying only the two totals; the per-type breakdowns required by the
§6 payload shape are absent (`none`), unlike the stats of `getGraphData`. -/
theorem C8_counterexample :
    (buildGraph (some "/ws") Builder.init [twoFuncFile]).map
      (fun p => ((filterByNodeType p.2 ["file"]).1.stats.nodesByType,
        (filterByNodeType p.2 ["file"]).1.stats.edgesByType,
        (getGraphData p.2).stats.nodesByType))
      = .ok (none, none, some { folder := 0, file := 1, function := 1 }) := by rfl

/-- C8 (amended): the filter keeps exactly the stored nodes of an allowed
type and exactly the stored edges whose two endpoints both survive, and it
recomputes `totalNodes`/`totalEdges` from the filtered collections — but its
stats object carries only those two totals, without the `nodesByType` and
`edgesByType` breakdowns of the full payload. -/
theorem C8_filter_induced_subgraph (b : Builder) (types : List String) :
    (∀ n, n ∈ (filterByNodeType b types).1.nodes ↔
      n ∈ b.nodes ∧ types.contains n.data.type) ∧
    (∀ e, e ∈ (filterByNodeType b types).1.edges ↔
      e ∈ b.edges ∧
        ((filterByNodeType b types).1.nodes.map (fun n => n.data.id)).contains e.data.source ∧
        ((filterByNodeType b types).1.nodes.map (fun n => n.data.id)).contains e.data.target) ∧
    (filterByNodeType b types).1.stats.totalNodes = (filterByNodeType b types).1.nodes.length ∧
    (filterByNodeType b types).1.stats.totalEdges = (filterByNodeType b types).1.edges.length ∧
    (filterByNodeType b types).1.stats.nodesByType = none ∧
    (filterByNodeType b types).1.stats.edgesByType = none := by
  refine ⟨?_, ?_, rfl, rfl, rfl, rfl⟩
  · intro n
    show n ∈ b.nodes.filter (fun n => types.contains n.data.type) ↔ _
    rw [List.mem_filter]
  · intro e
    show e ∈ b.edges.filter _ ↔ _
    rw [List.mem_filter]
    simp only [decide_eq_true_eq]
    rfl

/-- A file directly under the filesystem root, outside the workspace root
`/ws`. -/
def rootFile : FileRec :=
  { path := "/a.js", language := "javascript",
    functions := some [], imports := some [], exports := some [], calls := some [] }

/-- C6 counterexample: the parent directory of `/a.js` is `/`, which differs
from the workspace root `/ws`, yet the file node receives no incoming
`contains` edge at all: `/` is its own parent, so the folder walk registers
no folder for it (filesystem-root guard, graph.js 66). -/
theorem C6_counterexample :
    (buildGraph (some "/ws") Builder.init [rootFile]).map
      (fun p => (p.1.nodes.map (fun n => (n.data.type, n.data.path)), p.1.edges.length,
        dirname "/a.js" == "/ws"))
      = .ok ([("file", "/a.js")], 0, false) := by rfl

/-- C5: in every returned graph at most one edge exists per
`(source, target, type)` triple, and re-submitting a triple that is already
stored leaves the store unchanged, so the first occurrence's label is the one
retained. -/
theorem C5_no_duplicate_edges {ws : Option String} {b : Builder} {files : List FileRec}
    {g : GraphData} {bf : Builder} (h : buildGraph ws b files = .ok (g, bf)) :
    g.edges.Pairwise (fun e1 e2 =>
      ¬(e1.data.source = e2.data.source ∧ e1.data.target = e2.data.target ∧
        e1.data.type = e2.data.type)) ∧
    (∀ (b' : Builder) (s t ty l : String),
      (∃ e ∈ b'.edges, e.data.source = s ∧ e.data.target = t ∧ e.data.type = ty) →
      addEdge b' s t ty l = b') := by
  constructor
  · refine (flatDistinct_buildGraph h).imp ?_
    intro e1 e2 hne ⟨h1, h2, h3⟩
    exact hne (by rw [h1, h2, h3])
  · intro b' s t ty l ⟨e, he, h1, h2, h3⟩
    exact addEdge_dup ⟨e, he, by rw [h1, h2, h3]⟩ l

/-- Extraction of the payload of the C5/C9 witness build. -/
def witBuild : Except Unit (GraphData × Builder) :=
  buildGraph (some "/ws") Builder.init [twoFuncFile, recCallFile]

def witG : GraphData :=
  match witBuild with
  | .ok (g, _) => g
  | .error _ => getGraphData Builder.init

def witB : Builder :=
  match witBuild with
  | .ok (_, bf) => bf
  | .error _ => Builder.init

theorem witBuild_eq : buildGraph (some "/ws") Builder.init [twoFuncFile, recCallFile]
    = .ok (witG, witB) := by rfl

/-- The file-to-function containment edge of the witness build. -/
def witEdge0 : Edge :=
  { data := { id := "edge-0", source := "file-0", target := "function-2",
              type := "contains", label := "" } }

/-- C5 witness. -/
theorem C5_witness :
    witG.edges.Pairwise (fun e1 e2 =>
      ¬(e1.data.source = e2.data.source ∧ e1.data.target = e2.data.target ∧
        e1.data.type = e2.data.type)) ∧
    addEdge witB "file-0" "function-2" "contains" "later-label" = witB := by
  have h := C5_no_duplicate_edges witBuild_eq
  refine ⟨h.1, ?_⟩
  have hmem : witEdge0 ∈ witB.edges := by decide
  exact h.2 witB "file-0" "function-2" "contains" "later-label"
    ⟨witEdge0, hmem, rfl, rfl, rfl⟩

/-- C9: the directory-ancestry walk always completes within its fuel, visits
at most `pathDepth p` directories (bounded by the path's depth), and stops
exactly at the workspace root or at a directory that is its own parent — so
it never loops, even on the filesystem root or on paths outside the
workspace; moreover in any built graph the folder-node paths are pairwise
distinct (each directory registered exactly once) and every directory
visited by the walk of an input file is registered as a folder node. -/
theorem C9_folder_walk_terminates :
    (∀ (ws p : String),
      folderWalkFuel ws (p.length + 2) p = some (folderWalk ws p) ∧
      (folderWalk ws p).length ≤ pathDepth p ∧
      ∀ q ∈ folderWalk ws p, q ≠ ws ∧ dirname q ≠ q) ∧
    (∀ (w : String) (b : Builder) (files : List FileRec) (g : GraphData) (bf : Builder),
      buildGraph (some w) b files = .ok (g, bf) →
      ((g.nodes.filter (fun n => n.data.type == "folder")).map (fun n => n.data.path)).Nodup ∧
      ∀ f ∈ files, ∀ q ∈ folderWalk w (dirname f.path),
        ∃ n ∈ g.nodes, n.data.type = "folder" ∧ n.data.path = q) := by
  constructor
  · intro ws p
    exact folderWalk_spec ws p
  · intro w b files g bf h
    rcases buildGraph_ok_cases h with ⟨hfe, hg, _⟩ | ⟨_, s2, s3, hfn, hbe, hg, _⟩
    · subst hfe
      rw [hg]
      constructor
      · show ((([] : List Node).filter _).map _).Nodup
        simp
      · intro f hf
        simp at hf
    · obtain ⟨added, hadd, htypes⟩ := nodesExtFF_filePhase hfn
      have hframe := (EdgeFrame_buildEdgesGo files s2 s3 hbe).1
      have hgn : g.nodes = folderNodesFrom w 0 (folderList w files) ++ added := by
        rw [hg]
        show s3.nodes = _
        rw [hframe, hadd, buildFolderNodes_spec w files]
      constructor
      · rw [hgn, List.filter_append]
        have h1 : added.filter (fun n => n.data.type == "folder") = [] := by
          rw [List.filter_eq_nil]
          intro n hn
          rcases htypes n hn with ht | ht <;> rw [ht] <;> decide
        have h2 : (folderNodesFrom w 0 (folderList w files)).filter
            (fun n => n.data.type == "folder") = folderNodesFrom w 0 (folderList w files) := by
          rw [List.filter_eq_self]
          intro n hn
          rw [(folderNodesFrom_shape w _ _ n hn).1]
          decide
        rw [h1, h2, List.append_nil, folderNodesFrom_paths]
        exact folderList_nodup w files
      · intro f hf q hq
        have hqF : q ∈ folderList w files := mem_folderList.mpr ⟨f, hf, hq⟩
        obtain ⟨v, _, _, hnode⟩ := folderPhase_lookup w (folderList w files) 0 q hqF
        refine ⟨{ data := folderNodeData w q v }, ?_, rfl, rfl⟩
        rw [hgn]
        exact List.mem_append.mpr (Or.inl hnode)

/-- Payload of the C9 witness build (one file inside a subfolder). -/
def subFile : FileRec :=
  { path := "/ws/src/a.js", language := "javascript",
    functions := some [], imports := some [], exports := some [], calls := some [] }

def wit9G : GraphData :=
  match buildGraph (some "/ws") Builder.init [subFile] with
  | .ok (g, _) => g
  | .error _ => getGraphData Builder.init

def wit9B : Builder :=
  match buildGraph (some "/ws") Builder.init [subFile] with
  | .ok (_, bf) => bf
  | .error _ => Builder.init

/-- C9 witness. -/
theorem C9_witness :
    (folderWalkFuel "/ws" ("/ws/src".length + 2) "/ws/src"
        = some (folderWalk "/ws" "/ws/src") ∧
      (folderWalk "/ws" "/ws/src").length ≤ pathDepth "/ws/src") ∧
    ((wit9G.nodes.filter (fun n => n.data.type == "folder")).map (fun n => n.data.path)).Nodup ∧
    ∃ n ∈ wit9G.nodes, n.data.type = "folder" ∧ n.data.path = "/ws/src" := by
  have h1 := C9_folder_walk_terminates.1 "/ws" "/ws/src"
  have h2 := C9_folder_walk_terminates.2 "/ws" Builder.init [subFile] wit9G wit9B (by rfl)
  refine ⟨⟨h1.1, h1.2.1⟩, h2.1, ?_⟩
  exact h2.2 subFile (by decide) "/ws/src" (by decide)

/-! ## Closed form of the file/function pass (claim C6 machinery) -/

theorem mapGet_none_append {m1 m2 : List (String × String)} {k : String}
    (h1 : mapGet m1 k = none) (h2 : mapGet m2 k = none) : mapGet (m1 ++ m2) k = none := by
  rw [mapGet_append, h1]
  exact h2

theorem mapGet_single_ne {k' : String} (v : String) {k : String} (h : k' ≠ k) :
    mapGet [(k', v)] k = none := by
  simp [mapGet, h]

theorem folderEntries_get_file (F : List String) (s : Nat) (p : String) :
    mapGet (folderEntriesFrom s F) ("file" ++ ":" ++ p) = none := by
  refine (mapGet_eq_none_iff _ _).mpr ?_
  intro kv hkv
  obtain ⟨⟨q, _, hk⟩, _⟩ := folderEntriesFrom_values F s kv.1 kv.2 hkv
  rw [hk]
  exact fun h => key_ne_folder_file q p h

theorem folderEntries_get_function (F : List String) (s : Nat) (x : String) :
    mapGet (folderEntriesFrom s F) ("function" ++ ":" ++ x) = none := by
  refine (mapGet_eq_none_iff _ _).mpr ?_
  intro kv hkv
  obtain ⟨⟨q, _, hk⟩, _⟩ := folderEntriesFrom_values F s kv.1 kv.2 hkv
  rw [hk]
  exact fun h => key_ne_folder_function q x h

/-- Generated ids determine their type tag and counter value, as long as the
type tags are dash-free (all of `folder`, `file`, `function` are). -/
theorem mkId_inj_types {t t' : String} {k k' : Nat}
    (h0 : t.data.count '-' = 0) (h0' : t'.data.count '-' = 0)
    (h : mkId t k = mkId t' k') : t = t' ∧ k = k' := by
  have hd := congrArg String.data h
  rw [mkId_data, mkId_data] at hd
  obtain ⟨h1, h2⟩ := dashSplit _ _ _ _ hd (h0.trans h0'.symm)
  exact ⟨sext h1, natDec_inj (sext h2)⟩

theorem colon_mem_comp (a c : String) : ':' ∈ (a ++ ":" ++ c).data := by
  rw [sdata_app, sdata_app]
  refine List.mem_append.mpr (Or.inl (List.mem_append.mpr (Or.inr ?_)))
  decide

theorem self_ne_colon_ext (p y : String) : p ≠ p ++ ":" ++ y := by
  intro h
  have hd := congrArg (fun s => s.data.length) h
  simp only [sdata_app, List.length_append] at hd
  have hc : (":" : String).data.length = 1 := rfl
  rw [hc] at hd
  omega

/-- Nodes appended while processing one file record (graph.js 95-148): the
file node, then the single function node the keying bug of `addNode` leaves
from a non-empty `functions` array. -/
def fileBlockNodes (w : String) (F : List String) (c : Nat) (f : FileRec)
    (fl : List FuncRec) (il : List ImportRec) (el : List String) : List Node :=
  { data := { id := mkId "file" c
              label := basename f.path
              type := "file"
              path := f.path
              relativePath := some (pathRel w f.path)
              language := some f.language
              functionCount := some fl.length
              importCount := some il.length
              exportCount := some el.length } } ::
  (match fl with
   | [] => []
   | f1 :: _ =>
     [{ data := { id := mkId "function" (c + 1 + (if dirname f.path ∈ F then 0 else 1))
                  label := f1.name
                  type := "function"
                  path := f.path
                  line := some f1.line
                  endLine := some f1.endLine
                  functionType := some f1.type
                  params := some (f1.params.getD []) } }])

/-- Edges appended while processing one file record: the optional contains
edge from the registered parent folder, then the single file → function
contains edge of a non-empty `functions` array. -/
def fileBlockEdges (F : List String) (c elen : Nat) (f : FileRec)
    (fl : List FuncRec) : List Edge :=
  (if dirname f.path ∈ F then
    [{ data := { id := "edge-" ++ natDec elen
                 source := (mapGet (folderEntriesFrom 0 F)
                   ("folder" ++ ":" ++ dirname f.path)).getD ""
                 target := mkId "file" c
                 type := "contains"
                 label := "" } }]
   else []) ++
  (match fl with
   | [] => []
   | _ :: _ =>
     [{ data := { id := "edge-" ++ natDec (elen + (if dirname f.path ∈ F then 1 else 0))
                  source := mkId "file" c
                  target := mkId "function" (c + 1 + (if dirname f.path ∈ F then 0 else 1))
                  type := "contains"
                  label := "" } }])

/-- Identity-map entries appended while processing one file record. -/
def fileBlockEntries (F : List String) (c : Nat) (f : FileRec)
    (fl : List FuncRec) : List (String × String) :=
  ("file" ++ ":" ++ f.path, mkId "file" c) ::
  (match fl with
   | [] => []
   | _ :: _ =>
     [("function" ++ ":" ++ f.path,
       mkId "function" (c + 1 + (if dirname f.path ∈ F then 0 else 1)))])

/-- Counter value after processing one file record: one bump for the file id,
one wasted bump when the parent folder is unregistered, one bump per function
entry. -/
def fileBlockCount (F : List String) (c : Nat) (f : FileRec) (fl : List FuncRec) : Nat :=
  c + 1 + (if dirname f.path ∈ F then 0 else 1) + fl.length

def fpNodes (w : String) (F : List String) : Nat → List FileRec → List Node
  | _, [] => []
  | c, f :: rest =>
    fileBlockNodes w F c f (f.functions.getD []) (f.imports.getD []) (f.exports.getD []) ++
    fpNodes w F (fileBlockCount F c f (f.functions.getD [])) rest

def fpEdges (F : List String) : Nat → Nat → List FileRec → List Edge
  | _, _, [] => []
  | c, elen, f :: rest =>
    fileBlockEdges F c elen f (f.functions.getD []) ++
    fpEdges F (fileBlockCount F c f (f.functions.getD []))
      (elen + (fileBlockEdges F c elen f (f.functions.getD [])).length) rest

def fpEntries (F : List String) : Nat → List FileRec → List (String × String)
  | _, [] => []
  | c, f :: rest =>
    fileBlockEntries F c f (f.functions.getD []) ++
    fpEntries F (fileBlockCount F c f (f.functions.getD [])) rest

def fpCount (F : List String) : Nat → List FileRec → Nat
  | c, [] => c
  | c, f :: rest => fpCount F (fileBlockCount F c f (f.functions.getD [])) rest

/-! ## Per-file closed form of `fileNodeBody` (claim C6 machinery) -/

theorem funcFold_present (fpath fid fnId : String) :
    ∀ (fl : List FuncRec) (b : Builder),
      fpath ≠ "" →
      (∀ x : String, ':' ∈ x.data → mapGet b.nodeMap ("function" ++ ":" ++ x) = none) →
      mapGet b.nodeMap ("function" ++ ":" ++ fpath) = some fnId →
      fnId ≠ "" →
      (∃ e ∈ b.edges, edgeFlat e.data.source e.data.target e.data.type
        = edgeFlat fid fnId "contains") →
      fl.foldl (funcNodeStep fpath fid) b
        = { b with nodeIdCounter := b.nodeIdCounter + fl.length } := by
  intro fl
  induction fl with
  | nil =>
    intro b _ _ _ _ _
    simp
  | cons f1 fl ih =>
    intro b hne hcomp hkey hnid hdup
    rw [List.foldl_cons]
    have hstep : funcNodeStep fpath fid b f1
        = { b with nodeIdCounter := b.nodeIdCounter + 1 } := by
      have hg : mapGet b.nodeMap
          ("function" ++ ":" ++ (fpath ++ ":" ++ f1.name ++ ":" ++ natDec f1.line)) = none :=
        hcomp _ (colon_mem_comp _ _)
      unfold funcNodeStep
      simp only [getNodeId, hg]
      unfold addNode
      have hkeyval : ∀ ndid : String, nodeKey
          { id := ndid, label := f1.name, type := "function", path := fpath,
            line := some f1.line, endLine := some f1.endLine,
            functionType := some f1.type, params := some (f1.params.getD []) }
          = "function" ++ ":" ++ fpath := by
        intro ndid
        unfold nodeKey
        simp [hne]
      simp only [hkeyval]
      simp only [hkey]
      simp only [Option.getD_some]
      rw [if_pos hnid]
      exact addEdge_dup
        (b := { b with nodeIdCounter := b.nodeIdCounter + 1 }) hdup ""
    rw [hstep]
    rw [ih { b with nodeIdCounter := b.nodeIdCounter + 1 } hne hcomp hkey hnid hdup]
    have harith : b.nodeIdCounter + 1 + fl.length = b.nodeIdCounter + (f1 :: fl).length := by
      simp [List.length_cons]
      omega
    rw [harith]

theorem fileNodeBody_spec (w : String) (F : List String) (E : List (String × String))
    (f : FileRec) (fl : List FuncRec) (il : List ImportRec) (el : List String) (b : Builder)
    (hmap : b.nodeMap = folderEntriesFrom 0 F ++ E)
    (hE : ∀ kv ∈ E, ∃ p : String, p ≠ f.path ∧ ':' ∉ p.data ∧
      (kv.1 = "file" ++ ":" ++ p ∨ kv.1 = "function" ++ ":" ++ p))
    (hpne : f.path ≠ "") (hpc : ':' ∉ f.path.data)
    (hedges : ∀ e ∈ b.edges,
      (∃ ts i, e.data.source = mkId ts i ∧ ts.data.count '-' = 0) ∧
      (∃ tt j, e.data.target = mkId tt j ∧ j < b.nodeIdCounter ∧ tt.data.count '-' = 0)) :
    fileNodeBody (some w) b f fl il el =
      { nodes := b.nodes ++ fileBlockNodes w F b.nodeIdCounter f fl il el
        edges := b.edges ++ fileBlockEdges F b.nodeIdCounter b.edges.length f fl
        nodeIdCounter := fileBlockCount F b.nodeIdCounter f fl
        nodeMap := b.nodeMap ++ fileBlockEntries F b.nodeIdCounter f fl } := by
  have hEfile : mapGet E ("file" ++ ":" ++ f.path) = none := by
    refine (mapGet_eq_none_iff _ _).mpr ?_
    intro kv hkv
    obtain ⟨p, hp1, _, hk | hk⟩ := hE kv hkv
    · rw [hk]
      exact fun h => hp1 (key_inj h)
    · rw [hk]
      exact fun h => key_ne_file_function f.path p h.symm
  have hEfun : ∀ x : String, x = f.path ∨ ':' ∈ x.data →
      mapGet E ("function" ++ ":" ++ x) = none := by
    intro x hx
    refine (mapGet_eq_none_iff _ _).mpr ?_
    intro kv hkv
    obtain ⟨p, hp1, hp2, hk | hk⟩ := hE kv hkv
    · rw [hk]
      exact fun h => key_ne_file_function p x h
    · rw [hk]
      intro h
      have hpx := key_inj h
      rcases hx with hx | hx
      · exact hp1 (hpx.trans hx)
      · exact hp2 (by rw [hpx]; exact hx)
  have hEfolder : ∀ d : String, mapGet E ("folder" ++ ":" ++ d) = none := by
    intro d
    refine (mapGet_eq_none_iff _ _).mpr ?_
    intro kv hkv
    obtain ⟨p, _, _, hk | hk⟩ := hE kv hkv
    · rw [hk]
      exact fun h => key_ne_folder_file d p h.symm
    · rw [hk]
      exact fun h => key_ne_folder_function d p h.symm
  have hmfile : mapGet b.nodeMap ("file" ++ ":" ++ f.path) = none := by
    rw [hmap]
    exact mapGet_none_append (folderEntries_get_file F 0 f.path) hEfile
  have hmfunpath : mapGet b.nodeMap ("function" ++ ":" ++ f.path) = none := by
    rw [hmap]
    exact mapGet_none_append (folderEntries_get_function F 0 f.path) (hEfun _ (Or.inl rfl))
  have hmfunx : ∀ x : String, ':' ∈ x.data →
      mapGet b.nodeMap ("function" ++ ":" ++ x) = none := by
    intro x hx
    rw [hmap]
    exact mapGet_none_append (folderEntries_get_function F 0 x) (hEfun x (Or.inr hx))
  have hm2funx : ∀ x : String, ':' ∈ x.data →
      mapGet (b.nodeMap ++ [("file" ++ ":" ++ f.path, mkId "file" b.nodeIdCounter)])
        ("function" ++ ":" ++ x) = none := by
    intro x hx
    rw [mapGet_snoc_other (fun h => key_ne_file_function f.path x h) _]
    exact hmfunx x hx
  have hm2funpath :
      mapGet (b.nodeMap ++ [("file" ++ ":" ++ f.path, mkId "file" b.nodeIdCounter)])
        ("function" ++ ":" ++ f.path) = none := by
    rw [mapGet_snoc_other (fun h => key_ne_file_function f.path f.path h) _]
    exact hmfunpath
  have hmfolderbase : ∀ d : String, mapGet b.nodeMap ("folder" ++ ":" ++ d)
      = mapGet (folderEntriesFrom 0 F) ("folder" ++ ":" ++ d) := by
    intro d
    rw [hmap, mapGet_append]
    cases hfe : mapGet (folderEntriesFrom 0 F) ("folder" ++ ":" ++ d) with
    | some v => rfl
    | none => exact hEfolder d
  have hm2folder : ∀ d : String,
      mapGet (b.nodeMap ++ [("file" ++ ":" ++ f.path, mkId "file" b.nodeIdCounter)])
        ("folder" ++ ":" ++ d) = mapGet (folderEntriesFrom 0 F) ("folder" ++ ":" ++ d) := by
    intro d
    rw [mapGet_snoc_other (fun h => key_ne_folder_file d f.path h.symm) _]
    exact hmfolderbase d
  by_cases hFc : dirname f.path ∈ F
  · obtain ⟨v, hv, ⟨i0, _, hi0, hvshape⟩, _⟩ := folderPhase_lookup w F 0 (dirname f.path) hFc
    have hmfolder :
        mapGet (b.nodeMap ++ [("file" ++ ":" ++ f.path, mkId "file" b.nodeIdCounter)])
          ("folder" ++ ":" ++ dirname f.path) = some v := by
      rw [hm2folder, hv]
    have hfresh1 : ∀ e ∈ b.edges, edgeFlat e.data.source e.data.target e.data.type
        ≠ edgeFlat v (mkId "file" b.nodeIdCounter) "contains" := by
      intro e he hflat
      obtain ⟨⟨ts, i, hs, hs0⟩, ⟨tt, j, ht, hjlt, ht0⟩⟩ := hedges e he
      have hcs : e.data.source.data.count '-' = v.data.count '-' := by
        rw [hs, hvshape, mkId_dash_count _ _ hs0, mkId_dash_count _ _ (by decide)]
      have hct : e.data.target.data.count '-'
          = (mkId "file" b.nodeIdCounter).data.count '-' := by
        rw [ht, mkId_dash_count _ _ ht0, mkId_dash_count _ _ (by decide)]
      obtain ⟨_, h2, _⟩ := edgeFlat_inj hcs hct hflat
      rw [ht] at h2
      obtain ⟨hteq, hjeq⟩ := mkId_inj_types ht0 (by decide) h2
      omega
    have hcond1 : b.edges.any (fun e => edgeFlat e.data.source e.data.target e.data.type
        == edgeFlat v (mkId "file" b.nodeIdCounter) "contains") = false := by
      rw [List.any_eq_false]
      intro e he
      simpa using hfresh1 e he
    have hbody : fileNodeBody (some w) b f fl il el
        = fl.foldl (funcNodeStep f.path (mkId "file" b.nodeIdCounter))
            { nodes := b.nodes ++ [{ data :=
                { id := mkId "file" b.nodeIdCounter, label := basename f.path,
                  type := "file", path := f.path,
                  relativePath := some (pathRel w f.path), language := some f.language,
                  functionCount := some fl.length, importCount := some il.length,
                  exportCount := some el.length } }]
              edges := b.edges ++ [{ data :=
                { id := "edge-" ++ natDec b.edges.length, source := v,
                  target := mkId "file" b.nodeIdCounter, type := "contains", label := "" } }]
              nodeIdCounter := b.nodeIdCounter + 1
              nodeMap := b.nodeMap ++
                [("file" ++ ":" ++ f.path, mkId "file" b.nodeIdCounter)] } := by
      unfold fileNodeBody
      simp only [getNodeId, hmfile]
      unfold addNode
      have hkeyfile : ∀ ndid : String, nodeKey
          { id := ndid, label := basename f.path, type := "file", path := f.path,
            relativePath := some (pathRel w f.path), language := some f.language,
            functionCount := some fl.length, importCount := some il.length,
            exportCount := some el.length } = "file" ++ ":" ++ f.path := by
        intro ndid
        unfold nodeKey
        simp [hpne]
      simp only [hkeyfile, hmfile, Option.getD_none]
      rw [if_neg (by simp)]
      simp only [mapSet_of_none hmfile]
      simp only [getNodeId, hmfolder]
      have hhas : mapHas (b.nodeMap ++
          [("file" ++ ":" ++ f.path, mkId "file" b.nodeIdCounter)])
          ("folder" ++ ":" ++ dirname f.path) = true := by
        unfold mapHas
        rw [hmfolder]
        rfl
      rw [if_pos hhas]
      simp only [addEdge, hcond1]
      simp only [Bool.false_eq_true, if_false]
    rw [hbody]
    cases fl with
    | nil =>
      rw [List.foldl_nil]
      have hgd : (mapGet (folderEntriesFrom 0 F)
          ("folder:" ++ dirname f.path)).getD "" = v := by
        have hv2 : mapGet (folderEntriesFrom 0 F)
            ("folder:" ++ dirname f.path) = some v := hv
        rw [hv2]
        rfl
      simp [fileBlockNodes, fileBlockEdges, fileBlockEntries, fileBlockCount, hFc, hgd]
    | cons f1 fl' =>
      rw [List.foldl_cons]
      have hg2 : mapGet (b.nodeMap ++
          [("file" ++ ":" ++ f.path, mkId "file" b.nodeIdCounter)])
          ("function" ++ ":" ++ (f.path ++ ":" ++ f1.name ++ ":" ++ natDec f1.line)) = none :=
        hm2funx _ (colon_mem_comp _ _)
      have hfresh2 : ∀ e ∈ b.edges ++ [({ data :=
          { id := "edge-" ++ natDec b.edges.length, source := v,
            target := mkId "file" b.nodeIdCounter, type := "contains", label := "" } } : Edge)],
          edgeFlat e.data.source e.data.target e.data.type
            ≠ edgeFlat (mkId "file" b.nodeIdCounter)
                (mkId "function" (b.nodeIdCounter + 1)) "contains" := by
        intro e he hflat
        rcases List.mem_append.mp he with he | he
        · obtain ⟨⟨ts, i, hs, hs0⟩, ⟨tt, j, ht, hjlt, ht0⟩⟩ := hedges e he
          have hcs : e.data.source.data.count '-'
              = (mkId "file" b.nodeIdCounter).data.count '-' := by
            rw [hs, mkId_dash_count _ _ hs0, mkId_dash_count _ _ (by decide)]
          have hct : e.data.target.data.count '-'
              = (mkId "function" (b.nodeIdCounter + 1)).data.count '-' := by
            rw [ht, mkId_dash_count _ _ ht0, mkId_dash_count _ _ (by decide)]
          obtain ⟨_, h2, _⟩ := edgeFlat_inj hcs hct hflat
          rw [ht] at h2
          obtain ⟨hteq, hjeq⟩ := mkId_inj_types ht0 (by decide) h2
          omega
        · simp at he
          rw [he] at hflat
          have hcs : ((mkId "folder" i0) : String).data.count '-'
              = (mkId "file" b.nodeIdCounter).data.count '-' := by
            rw [mkId_dash_count _ _ (by decide), mkId_dash_count _ _ (by decide)]
          rw [hvshape] at hflat
          obtain ⟨_, h2, _⟩ := edgeFlat_inj hcs (by
            rw [mkId_dash_count _ _ (by decide), mkId_dash_count _ _ (by decide)]) hflat
          obtain ⟨hteq, _⟩ := mkId_inj_types (by decide) (by decide) h2
          exact absurd hteq (by decide)
      have hcond2 : (b.edges ++ [({ data :=
          { id := "edge-" ++ natDec b.edges.length, source := v,
            target := mkId "file" b.nodeIdCounter, type := "contains", label := "" } } : Edge)]).any
          (fun e => edgeFlat e.data.source e.data.target e.data.type
            == edgeFlat (mkId "file" b.nodeIdCounter)
                 (mkId "function" (b.nodeIdCounter + 1)) "contains") = false := by
        rw [List.any_eq_false]
        intro e he
        simpa using hfresh2 e he
      have hstep1 : funcNodeStep f.path (mkId "file" b.nodeIdCounter)
          { nodes := b.nodes ++ [{ data :=
              { id := mkId "file" b.nodeIdCounter, label := basename f.path,
                type := "file", path := f.path,
                relativePath := some (pathRel w f.path), language := some f.language,
                functionCount := some (f1 :: fl').length, importCount := some il.length,
                exportCount := some el.length } }]
            edges := b.edges ++ [{ data :=
              { id := "edge-" ++ natDec b.edges.length, source := v,
                target := mkId "file" b.nodeIdCounter, type := "contains", label := "" } }]
            nodeIdCounter := b.nodeIdCounter + 1
            nodeMap := b.nodeMap ++
              [("file" ++ ":" ++ f.path, mkId "file" b.nodeIdCounter)] } f1
          = { nodes := b.nodes ++ [{ data :=
              { id := mkId "file" b.nodeIdCounter, label := basename f.path,
                type := "file", path := f.path,
                relativePath := some (pathRel w f.path), language := some f.language,
                functionCount := some (f1 :: fl').length, importCount := some il.length,
                exportCount := some el.length } }] ++ [{ data :=
              { id := mkId "function" (b.nodeIdCounter + 1), label := f1.name,
                type := "function", path := f.path, line := some f1.line,
                endLine := some f1.endLine, functionType := some f1.type,
                params := some (f1.params.getD []) } }]
              edges := b.edges ++ [{ data :=
                { id := "edge-" ++ natDec b.edges.length, source := v,
                  target := mkId "file" b.nodeIdCounter, type := "contains", label := "" } }]
                ++ [{ data :=
                { id := "edge-" ++ natDec (b.edges.length + 1),
                  source := mkId "file" b.nodeIdCounter,
                  target := mkId "function" (b.nodeIdCounter + 1),
                  type := "contains", label := "" } }]
              nodeIdCounter := b.nodeIdCounter + 1 + 1
              nodeMap := b.nodeMap ++
                [("file" ++ ":" ++ f.path, mkId "file" b.nodeIdCounter)] ++
                [("function" ++ ":" ++ f.path, mkId "function" (b.nodeIdCounter + 1))] } := by
        unfold funcNodeStep
        simp only [getNodeId, hg2]
        unfold addNode
        have hkeyfn : ∀ ndid : String, nodeKey
            { id := ndid, label := f1.name, type := "function", path := f.path,
              line := some f1.line, endLine := some f1.endLine,
              functionType := some f1.type, params := some (f1.params.getD []) }
            = "function" ++ ":" ++ f.path := by
          intro ndid
          unfold nodeKey
          simp [hpne]
        simp only [hkeyfn, hm2funpath, Option.getD_none]
        rw [if_neg (by simp)]
        simp only [mapSet_of_none hm2funpath]
        simp only [addEdge, hcond2]
        simp only [Bool.false_eq_true, if_false]
        simp [List.length_append]
      rw [hstep1]
      have hcomp3 : ∀ x : String, ':' ∈ x.data →
          mapGet ((b.nodeMap ++
            [("file" ++ ":" ++ f.path, mkId "file" b.nodeIdCounter)]) ++
            [("function" ++ ":" ++ f.path, mkId "function" (b.nodeIdCounter + 1))])
            ("function" ++ ":" ++ x) = none := by
        intro x hx
        rw [mapGet_snoc_other ?hne0 _]
        case hne0 =>
          intro h
          exact hpc (by rw [key_inj h]; exact hx)
        exact hm2funx x hx
      have hkey3 : mapGet ((b.nodeMap ++
          [("file" ++ ":" ++ f.path, mkId "file" b.nodeIdCounter)]) ++
          [("function" ++ ":" ++ f.path, mkId "function" (b.nodeIdCounter + 1))])
          ("function" ++ ":" ++ f.path) = some (mkId "function" (b.nodeIdCounter + 1)) :=
        mapGet_snoc_self hm2funpath _
      have hdup3 : ∃ e ∈ (b.edges ++ [({ data :=
          { id := "edge-" ++ natDec b.edges.length, source := v,
            target := mkId "file" b.nodeIdCounter, type := "contains", label := "" } } : Edge)]
          ++ [({ data :=
          { id := "edge-" ++ natDec (b.edges.length + 1),
            source := mkId "file" b.nodeIdCounter,
            target := mkId "function" (b.nodeIdCounter + 1),
            type := "contains", label := "" } } : Edge)]),
          edgeFlat e.data.source e.data.target e.data.type
            = edgeFlat (mkId "file" b.nodeIdCounter)
                (mkId "function" (b.nodeIdCounter + 1)) "contains" := by
        refine ⟨_, List.mem_append.mpr (Or.inr (List.mem_singleton.mpr rfl)), rfl⟩
      rw [funcFold_present f.path (mkId "file" b.nodeIdCounter)
        (mkId "function" (b.nodeIdCounter + 1)) fl' _ hpne hcomp3 hkey3
        (mkId_ne_empty _ _) hdup3]
      have hgd2 : (mapGet (folderEntriesFrom 0 F)
          ("folder:" ++ dirname f.path)).getD "" = v := by
        have hv2 : mapGet (folderEntriesFrom 0 F)
            ("folder:" ++ dirname f.path) = some v := hv
        rw [hv2]
        rfl
      congr 1
      · simp [fileBlockNodes, hFc]
      · simp [fileBlockEdges, hFc, hgd2]
      · simp [fileBlockCount, hFc, List.length_cons]
        omega
      · simp [fileBlockEntries, hFc]
  · have hmfolderN :
        mapGet (b.nodeMap ++ [("file" ++ ":" ++ f.path, mkId "file" b.nodeIdCounter)])
          ("folder" ++ ":" ++ dirname f.path) = none := by
      rw [hm2folder]
      exact folderEntriesFrom_get_none F 0 _ hFc
    have hbody : fileNodeBody (some w) b f fl il el
        = fl.foldl (funcNodeStep f.path (mkId "file" b.nodeIdCounter))
            { nodes := b.nodes ++ [{ data :=
                { id := mkId "file" b.nodeIdCounter, label := basename f.path,
                  type := "file", path := f.path,
                  relativePath := some (pathRel w f.path), language := some f.language,
                  functionCount := some fl.length, importCount := some il.length,
                  exportCount := some el.length } }]
              edges := b.edges
              nodeIdCounter := b.nodeIdCounter + 1 + 1
              nodeMap := b.nodeMap ++
                [("file" ++ ":" ++ f.path, mkId "file" b.nodeIdCounter)] } := by
      unfold fileNodeBody
      simp only [getNodeId, hmfile]
      unfold addNode
      have hkeyfile : ∀ ndid : String, nodeKey
          { id := ndid, label := basename f.path, type := "file", path := f.path,
            relativePath := some (pathRel w f.path), language := some f.language,
            functionCount := some fl.length, importCount := some il.length,
            exportCount := some el.length } = "file" ++ ":" ++ f.path := by
        intro ndid
        unfold nodeKey
        simp [hpne]
      simp only [hkeyfile, hmfile, Option.getD_none]
      rw [if_neg (by simp)]
      simp only [mapSet_of_none hmfile]
      simp only [getNodeId, hmfolderN]
      have hhasN : mapHas (b.nodeMap ++
          [("file" ++ ":" ++ f.path, mkId "file" b.nodeIdCounter)])
          ("folder" ++ ":" ++ dirname f.path) = false := by
        unfold mapHas
        rw [hmfolderN]
        rfl
      rw [if_neg (by rw [hhasN]; simp)]
    rw [hbody]
    cases fl with
    | nil =>
      rw [List.foldl_nil]
      simp [fileBlockNodes, fileBlockEdges, fileBlockEntries, fileBlockCount, hFc]
    | cons f1 fl' =>
      rw [List.foldl_cons]
      have hg2 : mapGet (b.nodeMap ++
          [("file" ++ ":" ++ f.path, mkId "file" b.nodeIdCounter)])
          ("function" ++ ":" ++ (f.path ++ ":" ++ f1.name ++ ":" ++ natDec f1.line)) = none :=
        hm2funx _ (colon_mem_comp _ _)
      have hfresh2N : ∀ e ∈ b.edges,
          edgeFlat e.data.source e.data.target e.data.type
            ≠ edgeFlat (mkId "file" b.nodeIdCounter)
                (mkId "function" (b.nodeIdCounter + 1 + 1)) "contains" := by
        intro e he hflat
        obtain ⟨⟨ts, i, hs, hs0⟩, ⟨tt, j, ht, hjlt, ht0⟩⟩ := hedges e he
        have hcs : e.data.source.data.count '-'
            = (mkId "file" b.nodeIdCounter).data.count '-' := by
          rw [hs, mkId_dash_count _ _ hs0, mkId_dash_count _ _ (by decide)]
        have hct : e.data.target.data.count '-'
            = (mkId "function" (b.nodeIdCounter + 1 + 1)).data.count '-' := by
          rw [ht, mkId_dash_count _ _ ht0, mkId_dash_count _ _ (by decide)]
        obtain ⟨_, h2, _⟩ := edgeFlat_inj hcs hct hflat
        rw [ht] at h2
        obtain ⟨hteq, hjeq⟩ := mkId_inj_types ht0 (by decide) h2
        omega
      have hcond2N : b.edges.any
          (fun e => edgeFlat e.data.source e.data.target e.data.type
            == edgeFlat (mkId "file" b.nodeIdCounter)
                 (mkId "function" (b.nodeIdCounter + 1 + 1)) "contains") = false := by
        rw [List.any_eq_false]
        intro e he
        simpa using hfresh2N e he
      have hstep1 : funcNodeStep f.path (mkId "file" b.nodeIdCounter)
          { nodes := b.nodes ++ [{ data :=
              { id := mkId "file" b.nodeIdCounter, label := basename f.path,
                type := "file", path := f.path,
                relativePath := some (pathRel w f.path), language := some f.language,
                functionCount := some (f1 :: fl').length, importCount := some il.length,
                exportCount := some el.length } }]
            edges := b.edges
            nodeIdCounter := b.nodeIdCounter + 1 + 1
            nodeMap := b.nodeMap ++
              [("file" ++ ":" ++ f.path, mkId "file" b.nodeIdCounter)] } f1
          = { nodes := b.nodes ++ [{ data :=
                { id := mkId "file" b.nodeIdCounter, label := basename f.path,
                  type := "file", path := f.path,
                  relativePath := some (pathRel w f.path), language := some f.language,
                  functionCount := some (f1 :: fl').length, importCount := some il.length,
                  exportCount := some el.length } }] ++ [{ data :=
                { id := mkId "function" (b.nodeIdCounter + 1 + 1), label := f1.name,
                  type := "function", path := f.path, line := some f1.line,
                  endLine := some f1.endLine, functionType := some f1.type,
                  params := some (f1.params.getD []) } }]
              edges := b.edges ++ [{ data :=
                { id := "edge-" ++ natDec b.edges.length,
                  source := mkId "file" b.nodeIdCounter,
                  target := mkId "function" (b.nodeIdCounter + 1 + 1),
                  type := "contains", label := "" } }]
              nodeIdCounter := b.nodeIdCounter + 1 + 1 + 1
              nodeMap := b.nodeMap ++
                [("file" ++ ":" ++ f.path, mkId "file" b.nodeIdCounter)] ++
                [("function" ++ ":" ++ f.path,
                  mkId "function" (b.nodeIdCounter + 1 + 1))] } := by
        unfold funcNodeStep
        simp only [getNodeId, hg2]
        unfold addNode
        have hkeyfn : ∀ ndid : String, nodeKey
            { id := ndid, label := f1.name, type := "function", path := f.path,
              line := some f1.line, endLine := some f1.endLine,
              functionType := some f1.type, params := some (f1.params.getD []) }
            = "function" ++ ":" ++ f.path := by
          intro ndid
          unfold nodeKey
          simp [hpne]
        simp only [hkeyfn, hm2funpath, Option.getD_none]
        rw [if_neg (by simp)]
        simp only [mapSet_of_none hm2funpath]
        simp only [addEdge, hcond2N]
        simp only [Bool.false_eq_true, if_false]
      rw [hstep1]
      have hcomp3N : ∀ x : String, ':' ∈ x.data →
          mapGet ((b.nodeMap ++
            [("file" ++ ":" ++ f.path, mkId "file" b.nodeIdCounter)]) ++
            [("function" ++ ":" ++ f.path, mkId "function" (b.nodeIdCounter + 1 + 1))])
            ("function" ++ ":" ++ x) = none := by
        intro x hx
        rw [mapGet_snoc_other ?hne0 _]
        case hne0 =>
          intro h
          exact hpc (by rw [key_inj h]; exact hx)
        exact hm2funx x hx
      have hkey3N : mapGet ((b.nodeMap ++
          [("file" ++ ":" ++ f.path, mkId "file" b.nodeIdCounter)]) ++
          [("function" ++ ":" ++ f.path, mkId "function" (b.nodeIdCounter + 1 + 1))])
          ("function" ++ ":" ++ f.path)
          = some (mkId "function" (b.nodeIdCounter + 1 + 1)) :=
        mapGet_snoc_self hm2funpath _
      have hdup3N : ∃ e ∈ (b.edges ++ [({ data :=
          { id := "edge-" ++ natDec b.edges.length,
            source := mkId "file" b.nodeIdCounter,
            target := mkId "function" (b.nodeIdCounter + 1 + 1),
            type := "contains", label := "" } } : Edge)]),
          edgeFlat e.data.source e.data.target e.data.type
            = edgeFlat (mkId "file" b.nodeIdCounter)
                (mkId "function" (b.nodeIdCounter + 1 + 1)) "contains" := by
        refine ⟨_, List.mem_append.mpr (Or.inr (List.mem_singleton.mpr rfl)), rfl⟩
      rw [funcFold_present f.path (mkId "file" b.nodeIdCounter)
        (mkId "function" (b.nodeIdCounter + 1 + 1)) fl' _ hpne hcomp3N hkey3N
        (mkId_ne_empty _ _) hdup3N]
      congr 1
      · simp [fileBlockNodes, hFc]
      · simp [fileBlockEdges, hFc]
      · simp [fileBlockCount, hFc, List.length_cons]
        omega
      · simp [fileBlockEntries, hFc]

/-! ## File-pass state characterization (claim C6 machinery) -/

theorem fileBlockEdges_endpoints (w : String) (F : List String) (c elen : Nat)
    (f : FileRec) (fl : List FuncRec) :
    ∀ e ∈ fileBlockEdges F c elen f fl,
      (∃ ts i, e.data.source = mkId ts i ∧ ts.data.count '-' = 0) ∧
      (∃ tt j, e.data.target = mkId tt j ∧ c ≤ j ∧ j < fileBlockCount F c f fl ∧
        tt.data.count '-' = 0) := by
  intro e he
  unfold fileBlockEdges at he
  rcases List.mem_append.mp he with he | he
  · by_cases hFc : dirname f.path ∈ F
    · rw [if_pos hFc] at he
      simp at he
      subst he
      obtain ⟨v, hv, ⟨i0, _, _, hvs⟩, _⟩ := folderPhase_lookup w F 0 (dirname f.path) hFc
      constructor
      · refine ⟨"folder", i0, ?_, by decide⟩
        show (mapGet (folderEntriesFrom 0 F) ("folder" ++ ":" ++ dirname f.path)).getD "" = _
        rw [hv, hvs]
        rfl
      · refine ⟨"file", c, rfl, le_refl c, ?_, by decide⟩
        unfold fileBlockCount
        split <;> omega
    · rw [if_neg hFc] at he
      simp at he
  · cases fl with
    | nil => simp at he
    | cons f1 fl' =>
      simp at he
      subst he
      refine ⟨⟨"file", c, rfl, by decide⟩,
        ⟨"function", c + 1 + (if dirname f.path ∈ F then 0 else 1), rfl,
          le_trans (Nat.le_succ c) (Nat.le_add_right _ _), ?_, by decide⟩⟩
      by_cases hFc : dirname f.path ∈ F
      · simp [fileBlockCount, hFc]
      · simp [fileBlockCount, hFc]

theorem filePass_spec (w : String) (F : List String) :
    ∀ (rest : List FileRec) (E : List (String × String)) (b s2 : Builder),
      buildFileNodesGo (some w) b rest = .ok s2 →
      (∀ f ∈ rest, f.path ≠ "" ∧ ':' ∉ f.path.data) →
      ((rest.map (fun f => f.path)).Nodup) →
      b.nodeMap = folderEntriesFrom 0 F ++ E →
      (∀ kv ∈ E, ∃ p : String, ':' ∉ p.data ∧ p ∉ rest.map (fun f => f.path) ∧
        (kv.1 = "file" ++ ":" ++ p ∨ kv.1 = "function" ++ ":" ++ p)) →
      (∀ e ∈ b.edges,
        (∃ ts i, e.data.source = mkId ts i ∧ ts.data.count '-' = 0) ∧
        (∃ tt j, e.data.target = mkId tt j ∧ j < b.nodeIdCounter ∧
          tt.data.count '-' = 0)) →
      s2.nodes = b.nodes ++ fpNodes w F b.nodeIdCounter rest ∧
      s2.edges = b.edges ++ fpEdges F b.nodeIdCounter b.edges.length rest ∧
      s2.nodeIdCounter = fpCount F b.nodeIdCounter rest ∧
      s2.nodeMap = b.nodeMap ++ fpEntries F b.nodeIdCounter rest := by
  intro rest
  induction rest with
  | nil =>
    intro E b s2 h _ _ _ _ _
    injection h with h
    rw [← h]
    simp [fpNodes, fpEdges, fpCount, fpEntries]
  | cons f rest ih =>
    intro E b s2 h hp hnd hmap hE hedges
    cases hres : buildFileNode1 (some w) b f with
    | error e =>
      cases e
      rw [show buildFileNodesGo (some w) b (f :: rest) = .error () by
        simp [buildFileNodesGo, hres, bindE_error]] at h
      exact absurd h (by simp)
    | ok b1 =>
      simp only [buildFileNodesGo, hres, bindE_ok] at h
      obtain ⟨hfne, hine, hene⟩ := buildFileNode1_ok_fields hres
      obtain ⟨fl, hfv⟩ := Option.ne_none_iff_exists'.mp hfne
      obtain ⟨il, hiv⟩ := Option.ne_none_iff_exists'.mp hine
      obtain ⟨el, hev⟩ := Option.ne_none_iff_exists'.mp hene
      have hred : buildFileNode1 (some w) b f
          = .ok (fileNodeBody (some w) b f fl il el) := by
        simp [buildFileNode1, hfv, hiv, hev, fieldOf_some, bindE_ok]
      rw [hred] at hres
      injection hres with hres
      have hE' : ∀ kv ∈ E, ∃ p : String, p ≠ f.path ∧ ':' ∉ p.data ∧
          (kv.1 = "file" ++ ":" ++ p ∨ kv.1 = "function" ++ ":" ++ p) := by
        intro kv hkv
        obtain ⟨p, hp1, hp2, hp3⟩ := hE kv hkv
        refine ⟨p, ?_, hp1, hp3⟩
        intro hpe
        exact hp2 (by rw [hpe]; exact List.mem_map.mpr ⟨f, List.mem_cons_self _ _, rfl⟩)
      obtain ⟨hfp1, hfp2⟩ := hp f (List.mem_cons_self _ _)
      have hspec := fileNodeBody_spec w F E f fl il el b hmap hE' hfp1 hfp2 hedges
      rw [hspec] at hres
      rw [← hres] at h
      have hfpnotin : f.path ∉ rest.map (fun f => f.path) := by
        rw [List.map_cons] at hnd
        exact (List.nodup_cons.mp hnd).1
      obtain ⟨ihn, ihe, ihc, ihm⟩ :=
        ih (E ++ fileBlockEntries F b.nodeIdCounter f fl) _ s2 h
          (fun f' hf' => hp f' (List.mem_cons_of_mem _ hf'))
          (by rw [List.map_cons] at hnd; exact (List.nodup_cons.mp hnd).2)
          (by
            show b.nodeMap ++ fileBlockEntries F b.nodeIdCounter f fl = _
            rw [hmap, List.append_assoc])
          (by
            intro kv hkv
            rcases List.mem_append.mp hkv with hkv | hkv
            · obtain ⟨p, hp1, hp2, hp3⟩ := hE kv hkv
              refine ⟨p, hp1, ?_, hp3⟩
              intro hmem
              exact hp2 (by rw [List.map_cons]; exact List.mem_cons_of_mem _ hmem)
            · unfold fileBlockEntries at hkv
              rcases List.mem_cons.mp hkv with hkv | hkv
              · exact ⟨f.path, hfp2, hfpnotin, Or.inl (by rw [hkv])⟩
              · cases fl with
                | nil => simp at hkv
                | cons f1 fl' =>
                  simp at hkv
                  exact ⟨f.path, hfp2, hfpnotin, Or.inr (by rw [hkv]; rfl)⟩)
          (by
            intro e he
            rcases List.mem_append.mp he with he | he
            · obtain ⟨hsrc, tt, j, ht, hj, ht0⟩ := hedges e he
              refine ⟨hsrc, tt, j, ht, ?_, ht0⟩
              show j < fileBlockCount F b.nodeIdCounter f fl
              unfold fileBlockCount
              split <;> omega
            · obtain ⟨hsrc, tt, j, ht, _, hhi, ht0⟩ :=
                fileBlockEdges_endpoints w F b.nodeIdCounter b.edges.length f fl e he
              exact ⟨hsrc, tt, j, ht, hhi, ht0⟩)
      refine ⟨?_, ?_, ?_, ?_⟩
      · rw [ihn]
        simp [fpNodes, hfv, hiv, hev, List.append_assoc]
      · rw [ihe]
        simp [fpEdges, hfv, hiv, hev, List.append_assoc, List.length_append]
      · rw [ihc]
        simp [fpCount, hfv, hiv, hev]
      · rw [ihm]
        simp [fpEntries, hfv, hiv, hev, List.append_assoc]

/-! ## Contains-edge counting over the file-pass closed form (claim C6) -/

theorem mkId_beq_false {tt t2 : String} {j k : Nat} (h0 : tt.data.count '-' = 0)
    (h2 : t2.data.count '-' = 0) (hne : tt ≠ t2 ∨ j ≠ k) :
    ((mkId tt j : String) == mkId t2 k) = false := by
  rw [beq_eq_false_iff_ne]
  intro h
  obtain ⟨ha, hb⟩ := mkId_inj_types h0 h2 h
  rcases hne with h | h
  · exact h ha
  · exact h hb

theorem fileBlockCount_ge (F : List String) (c : Nat) (f : FileRec) (fl : List FuncRec) :
    c ≤ fileBlockCount F c f fl := by
  unfold fileBlockCount
  split <;> omega

theorem fileBlockCount_gt (F : List String) (c : Nat) (f : FileRec) (fl : List FuncRec) :
    c < fileBlockCount F c f fl := by
  unfold fileBlockCount
  split <;> omega

theorem fileBlockEdges_type (F : List String) (c elen : Nat) (f : FileRec)
    (fl : List FuncRec) : ∀ e ∈ fileBlockEdges F c elen f fl, e.data.type = "contains" := by
  intro e he
  unfold fileBlockEdges at he
  rcases List.mem_append.mp he with he | he
  · by_cases hFc : dirname f.path ∈ F
    · rw [if_pos hFc] at he
      simp at he
      rw [he]
    · rw [if_neg hFc] at he
      simp at he
  · cases fl with
    | nil => simp at he
    | cons f1 fl' =>
      simp at he
      rw [he]

theorem fpEdges_type (F : List String) : ∀ (rest : List FileRec) (c elen : Nat),
    ∀ e ∈ fpEdges F c elen rest, e.data.type = "contains" := by
  intro rest
  induction rest with
  | nil =>
    intro c elen e he
    simp [fpEdges] at he
  | cons f rest ih =>
    intro c elen e he
    simp only [fpEdges] at he
    rcases List.mem_append.mp he with he | he
    · exact fileBlockEdges_type _ _ _ _ _ e he
    · exact ih _ _ e he

theorem fileBlockEdges_no_target_ge (w : String) (F : List String) (c elen : Nat)
    (f : FileRec) (fl : List FuncRec) {t2 : String} {k : Nat}
    (h2 : t2.data.count '-' = 0) (hk : fileBlockCount F c f fl ≤ k) :
    ∀ e ∈ fileBlockEdges F c elen f fl, e.data.target ≠ mkId t2 k := by
  intro e he ht
  obtain ⟨_, tt, j, ht', _, hhi, ht0⟩ := fileBlockEdges_endpoints w F c elen f fl e he
  rw [ht'] at ht
  obtain ⟨_, hb⟩ := mkId_inj_types ht0 h2 ht
  omega

theorem fileBlockEdges_countP_zero (w : String) (F : List String) (c elen : Nat)
    (f : FileRec) (fl : List FuncRec) {t2 : String} {k : Nat}
    (h2 : t2.data.count '-' = 0) (hk : fileBlockCount F c f fl ≤ k) :
    (fileBlockEdges F c elen f fl).countP (fun e => e.data.target == mkId t2 k) = 0 := by
  rw [List.countP_eq_zero]
  intro e he hbc
  exact fileBlockEdges_no_target_ge w F c elen f fl h2 hk e he (eq_of_beq hbc)

theorem fpEdges_no_target_below (w : String) (F : List String) :
    ∀ (rest : List FileRec) (c elen : Nat) {t2 : String} {k : Nat},
      t2.data.count '-' = 0 → k < c →
      ∀ e ∈ fpEdges F c elen rest, e.data.target ≠ mkId t2 k := by
  intro rest
  induction rest with
  | nil =>
    intro c elen t2 k _ _ e he
    simp [fpEdges] at he
  | cons fh rest ih =>
    intro c elen t2 k h2 hk e he ht
    simp only [fpEdges] at he
    rcases List.mem_append.mp he with he | he
    · obtain ⟨_, tt, j, ht', hlo, _, ht0⟩ :=
        fileBlockEdges_endpoints w F c elen fh (fh.functions.getD []) e he
      rw [ht'] at ht
      obtain ⟨_, hb⟩ := mkId_inj_types ht0 h2 ht
      omega
    · exact ih _ _ h2 (lt_of_lt_of_le hk (fileBlockCount_ge F c fh _)) e he ht

theorem fpEdges_countP_zero_below (w : String) (F : List String)
    (rest : List FileRec) (c elen : Nat) {t2 : String} {k : Nat}
    (h2 : t2.data.count '-' = 0) (hk : k < c) :
    (fpEdges F c elen rest).countP (fun e => e.data.target == mkId t2 k) = 0 := by
  rw [List.countP_eq_zero]
  intro e he hbc
  exact fpEdges_no_target_below w F rest c elen h2 hk e he (eq_of_beq hbc)

theorem fileBlockEdges_countP_file (F : List String) (c elen : Nat) (f : FileRec)
    (fl : List FuncRec) :
    (fileBlockEdges F c elen f fl).countP (fun e => e.data.target == mkId "file" c)
      = if dirname f.path ∈ F then 1 else 0 := by
  have hffk : ∀ k : Nat, ((mkId "function" k : String) == mkId "file" c) = false :=
    fun k => mkId_beq_false (by decide) (by decide) (Or.inl (by decide))
  by_cases hFc : dirname f.path ∈ F <;> cases fl <;>
    simp [fileBlockEdges, hFc, hffk, List.countP_cons, List.countP_nil]

theorem fileBlockEdges_countP_function (F : List String) (c elen : Nat) (f : FileRec)
    (f1 : FuncRec) (fl' : List FuncRec) :
    (fileBlockEdges F c elen f (f1 :: fl')).countP
      (fun e => e.data.target == mkId "function"
        (c + 1 + (if dirname f.path ∈ F then 0 else 1))) = 1 := by
  have hffk : ∀ k : Nat, ((mkId "file" c : String) == mkId "function" k) = false :=
    fun k => mkId_beq_false (by decide) (by decide) (Or.inl (by decide))
  by_cases hFc : dirname f.path ∈ F <;>
    simp [fileBlockEdges, hFc, hffk, List.countP_cons, List.countP_nil]

theorem fileBlockEdges_src_file (F : List String) (c elen : Nat) (f : FileRec)
    (fl : List FuncRec) : ∀ e ∈ fileBlockEdges F c elen f fl,
    e.data.target = mkId "file" c →
    e.data.source = (mapGet (folderEntriesFrom 0 F)
      ("folder" ++ ":" ++ dirname f.path)).getD "" := by
  intro e he ht
  unfold fileBlockEdges at he
  rcases List.mem_append.mp he with he | he
  · by_cases hFc : dirname f.path ∈ F
    · rw [if_pos hFc] at he
      simp at he
      rw [he]
      rfl
    · rw [if_neg hFc] at he
      simp at he
  · cases fl with
    | nil => simp at he
    | cons f1 fl' =>
      simp at he
      rw [he] at ht
      exfalso
      obtain ⟨ha, _⟩ := mkId_inj_types (by decide) (by decide) ht
      exact absurd ha (by decide)

theorem fileBlockEdges_src_function (F : List String) (c elen : Nat) (f : FileRec)
    (f1 : FuncRec) (fl' : List FuncRec) : ∀ e ∈ fileBlockEdges F c elen f (f1 :: fl'),
    e.data.target = mkId "function" (c + 1 + (if dirname f.path ∈ F then 0 else 1)) →
    e.data.source = mkId "file" c := by
  intro e he ht
  unfold fileBlockEdges at he
  rcases List.mem_append.mp he with he | he
  · by_cases hFc : dirname f.path ∈ F
    · rw [if_pos hFc] at he
      simp at he
      rw [he] at ht
      exfalso
      obtain ⟨ha, _⟩ := mkId_inj_types (by decide) (by decide) ht
      exact absurd ha (by decide)
    · rw [if_neg hFc] at he
      simp at he
  · simp at he
    rw [he]

theorem fileBlockNodes_shape (w : String) (F : List String) (c : Nat) (f : FileRec)
    (fl : List FuncRec) (il : List ImportRec) (el : List String) :
    ∀ n ∈ fileBlockNodes w F c f fl il el,
      n.data.path = f.path ∧
      ((n.data.type = "file" ∧ n.data.id = mkId "file" c) ∨
       (n.data.type = "function" ∧ fl ≠ [] ∧
        n.data.id = mkId "function" (c + 1 + (if dirname f.path ∈ F then 0 else 1)))) := by
  intro n hn
  unfold fileBlockNodes at hn
  rcases List.mem_cons.mp hn with hn | hn
  · rw [hn]
    exact ⟨rfl, Or.inl ⟨rfl, rfl⟩⟩
  · cases fl with
    | nil => simp at hn
    | cons f1 fl' =>
      simp at hn
      rw [hn]
      exact ⟨rfl, Or.inr ⟨rfl, by simp, rfl⟩⟩

theorem fpNodes_paths (w : String) (F : List String) : ∀ (rest : List FileRec) (c : Nat),
    ∀ n ∈ fpNodes w F c rest, ∃ f ∈ rest, n.data.path = f.path := by
  intro rest
  induction rest with
  | nil =>
    intro c n hn
    simp [fpNodes] at hn
  | cons fh rest ih =>
    intro c n hn
    simp only [fpNodes] at hn
    rcases List.mem_append.mp hn with hn | hn
    · obtain ⟨hp, _⟩ := fileBlockNodes_shape w F c fh _ _ _ n hn
      exact ⟨fh, List.mem_cons_self _ _, hp⟩
    · obtain ⟨f', hf', hp'⟩ := ih _ n hn
      exact ⟨f', List.mem_cons_of_mem _ hf', hp'⟩

theorem fp_c6_core (w : String) (F : List String) :
    ∀ (rest : List FileRec) (c elen : Nat),
      ((rest.map (fun f => f.path)).Nodup) →
      ∀ f ∈ rest, ∃ cf, c ≤ cf ∧
        (∃ fn ∈ fpNodes w F c rest, fn.data.type = "file" ∧ fn.data.path = f.path ∧
          fn.data.id = mkId "file" cf) ∧
        (∀ fn' ∈ fpNodes w F c rest, fn'.data.type = "file" → fn'.data.path = f.path →
          fn'.data.id = mkId "file" cf) ∧
        (fpEdges F c elen rest).countP (fun e => e.data.target == mkId "file" cf)
          = (if dirname f.path ∈ F then 1 else 0) ∧
        (∀ e ∈ fpEdges F c elen rest, e.data.target = mkId "file" cf →
          e.data.source = (mapGet (folderEntriesFrom 0 F)
            ("folder" ++ ":" ++ dirname f.path)).getD "") ∧
        (∀ qn ∈ fpNodes w F c rest, qn.data.type = "function" → qn.data.path = f.path →
          ∃ cq, c ≤ cq ∧ qn.data.id = mkId "function" cq ∧
            (fpEdges F c elen rest).countP
              (fun e => e.data.target == mkId "function" cq) = 1 ∧
            ∀ e ∈ fpEdges F c elen rest, e.data.target = mkId "function" cq →
              e.data.source = mkId "file" cf) := by
  intro rest
  induction rest with
  | nil =>
    intro c elen _ f hf
    simp at hf
  | cons fh rest ih =>
    intro c elen hnd f hf
    have hndh : fh.path ∉ rest.map (fun f => f.path) := by
      rw [List.map_cons] at hnd
      exact (List.nodup_cons.mp hnd).1
    have hndt : (rest.map (fun f => f.path)).Nodup := by
      rw [List.map_cons] at hnd
      exact (List.nodup_cons.mp hnd).2
    rcases List.mem_cons.mp hf with hfh | hft
    · subst hfh
      refine ⟨c, le_refl c, ?_, ?_, ?_, ?_, ?_⟩
      · refine ⟨{ data :=
          { id := mkId "file" c, label := basename f.path, type := "file", path := f.path,
            relativePath := some (pathRel w f.path), language := some f.language,
            functionCount := some (f.functions.getD []).length,
            importCount := some (f.imports.getD []).length,
            exportCount := some (f.exports.getD []).length } }, ?_, rfl, rfl, rfl⟩
        simp only [fpNodes]
        refine List.mem_append.mpr (Or.inl ?_)
        unfold fileBlockNodes
        exact List.mem_cons_self _ _
      · intro fn' hfn' hty hpath
        simp only [fpNodes] at hfn'
        rcases List.mem_append.mp hfn' with hfn' | hfn'
        · obtain ⟨_, hsh⟩ := fileBlockNodes_shape w F c f _ _ _ fn' hfn'
          rcases hsh with ⟨_, hid⟩ | ⟨hty2, _, _⟩
          · exact hid
          · rw [hty] at hty2
            exact absurd hty2 (by decide)
        · obtain ⟨f', hf', hp'⟩ := fpNodes_paths w F rest _ fn' hfn'
          exfalso
          apply hndh
          exact List.mem_map.mpr ⟨f', hf', by rw [← hp', hpath]⟩
      · simp only [fpEdges]
        rw [List.countP_append, fileBlockEdges_countP_file,
          fpEdges_countP_zero_below w F rest _ _ (by decide) (fileBlockCount_gt F c f _)]
        simp
      · intro e he ht
        simp only [fpEdges] at he
        rcases List.mem_append.mp he with he | he
        · exact fileBlockEdges_src_file F c elen f _ e he ht
        · exact absurd ht (fpEdges_no_target_below w F rest _ _ (by decide)
            (fileBlockCount_gt F c f _) e he)
      · intro qn hqn hqty hqpath
        simp only [fpNodes] at hqn
        rcases List.mem_append.mp hqn with hqn | hqn
        · obtain ⟨_, hsh⟩ := fileBlockNodes_shape w F c f _ _ _ qn hqn
          rcases hsh with ⟨hty2, _⟩ | ⟨_, hflne, hid⟩
          · rw [hqty] at hty2
            exact absurd hty2 (by decide)
          · rcases hfl : f.functions.getD [] with _ | ⟨f1, fl'⟩
            · rw [hfl] at hflne
              exact absurd rfl hflne
            · have hlt : c + 1 + (if dirname f.path ∈ F then 0 else 1)
                  < fileBlockCount F c f (f1 :: fl') := by
                by_cases hFc2 : dirname f.path ∈ F
                · simp only [fileBlockCount, if_pos hFc2, List.length_cons]
                  omega
                · simp only [fileBlockCount, if_neg hFc2, List.length_cons]
                  omega
              refine ⟨c + 1 + (if dirname f.path ∈ F then 0 else 1),
                le_trans (Nat.le_succ c) (Nat.le_add_right _ _), hid, ?_, ?_⟩
              · simp only [fpEdges]
                rw [hfl, List.countP_append, fileBlockEdges_countP_function,
                  fpEdges_countP_zero_below w F rest _ _ (by decide) hlt]
              · intro e he ht
                simp only [fpEdges] at he
                rw [hfl] at he
                rcases List.mem_append.mp he with he | he
                · exact fileBlockEdges_src_function F c elen f f1 fl' e he ht
                · exact absurd ht (fpEdges_no_target_below w F rest _ _
                    (by decide) hlt e he)
        · obtain ⟨f', hf', hp'⟩ := fpNodes_paths w F rest _ qn hqn
          exfalso
          apply hndh
          exact List.mem_map.mpr ⟨f', hf', by rw [← hp', hqpath]⟩
    · obtain ⟨cf, hcfge, ⟨fn, hfnmem, hfna, hfnb, hfnc⟩, huniq, hcount, hsrc, hfun⟩ :=
        ih (fileBlockCount F c fh (fh.functions.getD []))
          (elen + (fileBlockEdges F c elen fh (fh.functions.getD [])).length) hndt f hft
      have hcge : c ≤ fileBlockCount F c fh (fh.functions.getD []) :=
        fileBlockCount_ge F c fh _
      refine ⟨cf, le_trans hcge hcfge, ?_, ?_, ?_, ?_, ?_⟩
      · refine ⟨fn, ?_, hfna, hfnb, hfnc⟩
        simp only [fpNodes]
        exact List.mem_append.mpr (Or.inr hfnmem)
      · intro fn' hfn' hty hpath
        simp only [fpNodes] at hfn'
        rcases List.mem_append.mp hfn' with hfn' | hfn'
        · obtain ⟨hp', _⟩ := fileBlockNodes_shape w F c fh _ _ _ fn' hfn'
          exfalso
          apply hndh
          refine List.mem_map.mpr ⟨f, hft, ?_⟩
          rw [← hpath]
          exact hp'
        · exact huniq fn' hfn' hty hpath
      · simp only [fpEdges]
        rw [List.countP_append,
          fileBlockEdges_countP_zero w F c elen fh _ (by decide) hcfge,
          Nat.zero_add]
        exact hcount
      · intro e he ht
        simp only [fpEdges] at he
        rcases List.mem_append.mp he with he | he
        · exact absurd ht
            (fileBlockEdges_no_target_ge w F c elen fh _ (by decide) hcfge e he)
        · exact hsrc e he ht
      · intro qn hqn hqty hqpath
        simp only [fpNodes] at hqn
        rcases List.mem_append.mp hqn with hqn | hqn
        · obtain ⟨hp', _⟩ := fileBlockNodes_shape w F c fh _ _ _ qn hqn
          exfalso
          apply hndh
          refine List.mem_map.mpr ⟨f, hft, ?_⟩
          rw [← hqpath]
          exact hp'
        · obtain ⟨cq, hcqge, hqid, hqcount, hqsrc⟩ := hfun qn hqn hqty hqpath
          refine ⟨cq, le_trans hcge hcqge, hqid, ?_, ?_⟩
          · simp only [fpEdges]
            rw [List.countP_append,
              fileBlockEdges_countP_zero w F c elen fh _ (by decide) hcqge,
              Nat.zero_add]
            exact hqcount
          · intro e he ht
            simp only [fpEdges] at he
            rcases List.mem_append.mp he with he | he
            · exact absurd ht
                (fileBlockEdges_no_target_ge w F c elen fh _ (by decide) hcqge e he)
            · exact hqsrc e he ht

/-- C6 (amended): in any successful build with workspace root `w`, on input
file records whose paths are nonempty, colon-free and pairwise distinct:
every file node of the returned graph stems from an input record, and every
input record has a unique file node; that file node has exactly one incoming
`contains` edge — and its source is the folder node of the file's parent
directory — precisely when the parent directory is neither the workspace
root nor its own parent (the code's registration guard), and zero incoming
`contains` edges otherwise.  In particular a file whose parent directory is
the filesystem root gets no contains edge even though its parent is not the
workspace root, which corrects the spec's "directly under the workspace
root" guard.  Moreover every function node carrying that file's path has
exactly one incoming `contains` edge, whose source is the file's node. -/

theorem C6_contains_structure {w : String} {b : Builder} {files : List FileRec}
    {g : GraphData} {bf : Builder}
    (hok : buildGraph (some w) b files = .ok (g, bf))
    (hpaths : ∀ f ∈ files, f.path ≠ "" ∧ ':' ∉ f.path.data)
    (hnd : (files.map (fun f => f.path)).Nodup) :
    (∀ fn ∈ g.nodes, fn.data.type = "file" → ∃ f ∈ files, fn.data.path = f.path) ∧
    ∀ f ∈ files, ∃ fn ∈ g.nodes, fn.data.type = "file" ∧ fn.data.path = f.path ∧
      (∀ fn' ∈ g.nodes, fn'.data.type = "file" → fn'.data.path = f.path →
        fn'.data.id = fn.data.id) ∧
      (g.edges.countP (fun e => e.data.type == "contains" && e.data.target == fn.data.id)
        = if dirname f.path ≠ w ∧ dirname (dirname f.path) ≠ dirname f.path
          then 1 else 0) ∧
      ((dirname f.path ≠ w ∧ dirname (dirname f.path) ≠ dirname f.path) →
        ∃ pn ∈ g.nodes, pn.data.type = "folder" ∧ pn.data.path = dirname f.path ∧
          ∀ e ∈ g.edges, e.data.type = "contains" → e.data.target = fn.data.id →
            e.data.source = pn.data.id) ∧
      (∀ qn ∈ g.nodes, qn.data.type = "function" → qn.data.path = f.path →
        g.edges.countP
          (fun e => e.data.type == "contains" && e.data.target == qn.data.id) = 1 ∧
        ∀ e ∈ g.edges, e.data.type = "contains" → e.data.target = qn.data.id →
          e.data.source = fn.data.id) := by
  rcases buildGraph_ok_cases hok with ⟨hfe, hg, _⟩ | ⟨_, s2, s3, hfn, hbe, hg, _⟩
  · subst hfe
    rw [hg]
    constructor
    · intro fn hm _
      exact absurd hm (List.not_mem_nil fn)
    · intro f hf
      exact absurd hf (List.not_mem_nil f)
  · obtain ⟨hnodes3, hmap3, added, hedges3, htypes⟩ := EdgeFrame_buildEdgesGo files s2 s3 hbe
    rw [buildFolderNodes_spec w files] at hfn
    obtain ⟨ihn, ihe, ihc, ihm⟩ := filePass_spec w (folderList w files) files [] _ s2 hfn
      hpaths hnd (by simp) (by simp)
      (by intro e he; exact absurd he (List.not_mem_nil e))
    have hn2 : s2.nodes = folderNodesFrom w 0 (folderList w files)
        ++ fpNodes w (folderList w files) (folderList w files).length files := ihn
    have he2 : s2.edges
        = fpEdges (folderList w files) (folderList w files).length 0 files := ihe
    have hgn : g.nodes = s2.nodes := by
      rw [hg]
      exact hnodes3
    have hge : g.edges = s2.edges ++ added := by
      rw [hg]
      exact hedges3
    constructor
    · intro fn hm hty
      rw [hgn, hn2] at hm
      rcases List.mem_append.mp hm with hm | hm
      · obtain ⟨ht2, _, _⟩ := folderNodesFrom_shape w _ _ fn hm
        rw [hty] at ht2
        exact absurd ht2 (by decide)
      · exact fpNodes_paths w _ files _ fn hm
    · intro f hf
      obtain ⟨cf, hcfge, ⟨fn, hfnmem, hfna, hfnb, hfnc⟩, huniq, hcount, hsrc, hfunq⟩ :=
        fp_c6_core w (folderList w files) files (folderList w files).length 0 hnd f hf
      have hguard : (dirname f.path ∈ folderList w files)
          ↔ (dirname f.path ≠ w ∧ dirname (dirname f.path) ≠ dirname f.path) := by
        constructor
        · intro hmem
          obtain ⟨f', _, hq⟩ := mem_folderList.mp hmem
          exact (folderWalk_spec w (dirname f'.path)).2.2 _ hq
        · rintro ⟨h1, h2⟩
          refine mem_folderList.mpr ⟨f, hf, ?_⟩
          obtain ⟨l, hl⟩ := folderWalk_head h1 h2
          rw [hl]
          exact List.mem_cons_self _ _
      refine ⟨fn, ?_, hfna, hfnb, ?_, ?_, ?_, ?_⟩
      · rw [hgn, hn2]
        exact List.mem_append.mpr (Or.inr hfnmem)
      · intro fn' hfn' hty hpath
        rw [hgn, hn2] at hfn'
        rcases List.mem_append.mp hfn' with hm | hm
        · obtain ⟨ht2, _, _⟩ := folderNodesFrom_shape w _ _ fn' hm
          rw [hty] at ht2
          exact absurd ht2 (by decide)
        · rw [hfnc]
          exact huniq fn' hm hty hpath
      · rw [hge, List.countP_append]
        have haddz : added.countP
            (fun e => e.data.type == "contains" && e.data.target == fn.data.id) = 0 := by
          rw [List.countP_eq_zero]
          intro e he hp2
          rw [Bool.and_eq_true] at hp2
          have h3 := eq_of_beq hp2.1
          rcases htypes e he with ht | ht
          · rw [ht] at h3
            exact absurd h3 (by decide)
          · rw [ht] at h3
            exact absurd h3 (by decide)
        rw [haddz, Nat.add_zero, he2]
        have hcongr : (fpEdges (folderList w files) (folderList w files).length 0
              files).countP
            (fun e => e.data.type == "contains" && e.data.target == fn.data.id)
            = (fpEdges (folderList w files) (folderList w files).length 0 files).countP
              (fun e => e.data.target == mkId "file" cf) := by
          refine List.countP_congr ?_
          intro e he
          have ht := fpEdges_type (folderList w files) files _ _ e he
          rw [ht, hfnc]
          simp
        rw [hcongr, hcount]
        by_cases hmem : dirname f.path ∈ folderList w files
        · rw [if_pos hmem, if_pos (hguard.mp hmem)]
        · rw [if_neg hmem, if_neg (fun hc => hmem (hguard.mpr hc))]
      · rintro ⟨h1, h2⟩
        have hmem : dirname f.path ∈ folderList w files := hguard.mpr ⟨h1, h2⟩
        obtain ⟨v, hv, _, hnodemem⟩ :=
          folderPhase_lookup w (folderList w files) 0 (dirname f.path) hmem
        refine ⟨{ data := folderNodeData w (dirname f.path) v }, ?_, rfl, rfl, ?_⟩
        · rw [hgn, hn2]
          exact List.mem_append.mpr (Or.inl hnodemem)
        · intro e he hty htar
          rw [hge] at he
          rcases List.mem_append.mp he with he | he
          · have hs := hsrc e (by rw [← he2]; exact he) (by rw [← hfnc]; exact htar)
            rw [hs, hv]
            rfl
          · rcases htypes e he with ht | ht
            · rw [hty] at ht
              exact absurd ht (by decide)
            · rw [hty] at ht
              exact absurd ht (by decide)
      · intro qn hqn hqty hqpath
        rw [hgn, hn2] at hqn
        rcases List.mem_append.mp hqn with hm | hm
        · obtain ⟨ht2, _, _⟩ := folderNodesFrom_shape w _ _ qn hm
          rw [hqty] at ht2
          exact absurd ht2 (by decide)
        · obtain ⟨cq, hcqge, hqid, hqcount, hqsrc⟩ := hfunq qn hm hqty hqpath
          constructor
          · rw [hge, List.countP_append]
            have haddz2 : added.countP
                (fun e => e.data.type == "contains" && e.data.target == qn.data.id)
                = 0 := by
              rw [List.countP_eq_zero]
              intro e he hp2
              rw [Bool.and_eq_true] at hp2
              have h3 := eq_of_beq hp2.1
              rcases htypes e he with ht | ht
              · rw [ht] at h3
                exact absurd h3 (by decide)
              · rw [ht] at h3
                exact absurd h3 (by decide)
            rw [haddz2, Nat.add_zero, he2]
            have hcongr2 : (fpEdges (folderList w files) (folderList w files).length 0
                  files).countP
                (fun e => e.data.type == "contains" && e.data.target == qn.data.id)
                = (fpEdges (folderList w files) (folderList w files).length 0
                    files).countP
                  (fun e => e.data.target == mkId "function" cq) := by
              refine List.countP_congr ?_
              intro e he
              have ht := fpEdges_type (folderList w files) files _ _ e he
              rw [ht, hqid]
              simp
            rw [hcongr2]
            exact hqcount
          · intro e he hty htar
            rw [hge] at he
            rcases List.mem_append.mp he with he | he
            · have hs := hqsrc e (by rw [← he2]; exact he) (by rw [← hqid]; exact htar)
              rw [hs, hfnc]
            · rcases htypes e he with ht | ht
              · rw [hty] at ht
                exact absurd ht (by decide)
              · rw [hty] at ht
                exact absurd ht (by decide)

/-- Payload of the C6 witness build: one file with one function inside a
subfolder of the workspace. -/
def c6File : FileRec :=
  { path := "/ws/src/b.js", language := "javascript",
    functions := some [{ name := "f", type := "function", line := 1, endLine := 2,
                         params := some [] }],
    imports := some [], exports := some [], calls := some [] }

def wit6G : GraphData :=
  match buildGraph (some "/ws") Builder.init [c6File] with
  | .ok (g, _) => g
  | .error _ => getGraphData Builder.init

def wit6B : Builder :=
  match buildGraph (some "/ws") Builder.init [c6File] with
  | .ok (_, bf) => bf
  | .error _ => Builder.init

/-- C6 witness. -/
theorem C6_witness :
    ∃ fn ∈ wit6G.nodes, fn.data.type = "file" ∧ fn.data.path = "/ws/src/b.js" ∧
      wit6G.edges.countP
        (fun e => e.data.type == "contains" && e.data.target == fn.data.id) = 1 := by
  have h := C6_contains_structure
    (show buildGraph (some "/ws") Builder.init [c6File] = .ok (wit6G, wit6B) by rfl)
    (by decide) (by decide)
  obtain ⟨fn, hmem, hty, hpath, _, hcount, _, _⟩ := h.2 c6File (List.mem_cons_self _ _)
  refine ⟨fn, hmem, hty, hpath, ?_⟩
  rw [hcount, if_pos (show dirname c6File.path ≠ "/ws" ∧
    dirname (dirname c6File.path) ≠ dirname c6File.path by decide)]
